import Mathlib

/-!
# Verification of the cushy widget tree and input-dispatch engine

This file gives a shallow embedding of the tree collection widget
(`src/widgets/tree.rs`) and of the window input-dispatch engine
(`src/window.rs`) of the repository, and proves or refutes the frozen
claims about them.

Conventions used throughout:

* `usize` keys and ids become `Nat`; `Px` pixel coordinates become `Int`
  (no overflow reasoning is needed by any claim).
* `IndexMap<K, V>` (insertion-ordered map with unique keys) becomes a
  `List (K × V)` kept in insertion order; `shift_remove` is `List.filter`
  on the key (which coincides with `shift_remove` because keys are unique),
  and insertion of a fresh key is an append.
* fallible code returns `Except String`, with `Except.error` standing for a
  Rust panic (`unwrap` / `expect`).
* Widget payloads (`WidgetInstance`, child widget lists, labels) do not
  influence any of the claims, which are purely about keys, parent links,
  order, geometry and event routing; the corresponding fields are omitted
  from the node structures.
-/

namespace Cushy

/-! ## Part 1: the `Tree` collection widget of `src/widgets/tree.rs` -/

/-- `TreeNodeKey(usize)` from `src/widgets/tree.rs`. -/
abbrev TreeNodeKey := Nat

/-- `TreeNode` from `src/widgets/tree.rs`, keeping the `parent` and `depth`
fields; the `child_widget`/`children` widget payloads are omitted (opaque to
every claim). -/
structure TreeNode where
  parent : Option TreeNodeKey
  depth : Nat
deriving DecidableEq, Repr

/-- The contents of the `IndexMap<TreeNodeKey, TreeNode>`: entries in
insertion order, keys unique in every state the code can construct. -/
abbrev Nodes := List (TreeNodeKey × TreeNode)

/-- `IndexMap::get`: the value of the first (in a well-formed map: only)
entry with the given key. -/
def getNode (m : Nodes) (k : TreeNodeKey) : Option TreeNode :=
  (m.find? (fun p => p.1 == k)).map (fun p => p.2)

/-- `IndexMap::contains_key`. -/
def containsKey (m : Nodes) (k : TreeNodeKey) : Bool :=
  m.any (fun p => p.1 == k)

/-- `IndexMap::shift_remove`: drop the entry with key `k`, preserving the
relative order of all other entries. -/
def shiftRemove (m : Nodes) (k : TreeNodeKey) : Nodes :=
  m.filter (fun p => p.1 != k)

/-- `Tree` from `src/widgets/tree.rs` (the `Dynamic` wrapper around the node
map is irrelevant to the claims: the widget model only ever observes the
current map). -/
structure Tree where
  nodes : Nodes
  next_key : TreeNodeKey
deriving DecidableEq, Repr

/-- `Tree::default()`. -/
def Tree.default : Tree := { nodes := [], next_key := 0 }

/-- `Tree::generate_next_key`: returns the key handed out together with the
updated tree. -/
def Tree.generate_next_key (t : Tree) : TreeNodeKey × Tree :=
  (t.next_key, { t with next_key := t.next_key + 1 })

/-- `Tree::insert_child_f` (src/widgets/tree.rs lines 128..174): determine
`(depth, parent_key)`; when the parent is missing no key is generated and the
tree is unchanged; otherwise the fresh key is appended with the new node.
Returns the assigned key (if any) with the updated tree. -/
def Tree.insert_child (t : Tree) (parent : Option TreeNodeKey) :
    Option TreeNodeKey × Tree :=
  let dp : Option (Nat × Option TreeNodeKey) :=
    match parent with
    | some p =>
      match getNode t.nodes p with
      | some parent_node => some (parent_node.depth + 1, some p)
      | none => none
    | none => some (0, none)
  match dp with
  | some (depth, parent_key) =>
    let (key, t') := t.generate_next_key
    (some key, { t' with nodes := t'.nodes ++ [(key, ⟨parent_key, depth⟩)] })
  | none => (none, t)

/-- `Tree::insert_after_f` (src/widgets/tree.rs lines 206..251).  The first
line runs `self.nodes.lock().get(sibling).unwrap()`, which panics when the
sibling key is absent — modelled by `Except.error`.  Otherwise a root sibling
is silently refused (`None`), and a non-root sibling gets a fresh key with the
sibling's depth and parent. -/
def Tree.insert_after (t : Tree) (sibling : TreeNodeKey) :
    Except String (Option TreeNodeKey × Tree) :=
  match getNode t.nodes sibling with
  | none => .error "called Option::unwrap on a None value"
  | some sibling_node =>
    match sibling_node.parent with
    | none => .ok (none, t)
    | some parent_key =>
      let depth := sibling_node.depth
      let (key, t') := t.generate_next_key
      .ok (some key,
        { t' with nodes := t'.nodes ++ [(key, ⟨some parent_key, depth⟩)] })

/-- `Tree::clear` (src/widgets/tree.rs lines 254..257): removes all nodes and
resets the key counter to its default. -/
def Tree.clear (_t : Tree) : Tree := { nodes := [], next_key := 0 }

/-- The DFS stack loop inside `Tree::remove_node` (lines 268..279): pop a
key; if it is still present, `shift_remove` it and push (in map order, so the
last child is popped first) every remaining key whose parent is the popped
key. -/
def removeLoop (nodes : Nodes) (stack : List TreeNodeKey) : Nodes :=
  match stack with
  | [] => nodes
  | current :: rest =>
    if h : containsKey nodes current then
      let nodes' := shiftRemove nodes current
      let children :=
        (nodes'.filter (fun p => p.2.parent == some current)).map (fun p => p.1)
      removeLoop nodes' (children.reverse ++ rest)
    else
      removeLoop nodes rest
termination_by (nodes.length, stack.length)
decreasing_by
  · apply Prod.Lex.left
    rcases List.any_eq_true.1 h with ⟨p, hp, hpk⟩
    rcases Nat.lt_or_ge (nodes.filter (fun q => q.1 != current)).length nodes.length with hlt | hge
    · simpa [shiftRemove] using hlt
    · exfalso
      have heq : (nodes.filter (fun q => q.1 != current)).length = nodes.length :=
        Nat.le_antisymm (List.length_filter_le _ _) hge
      have hfe : nodes.filter (fun q => q.1 != current) = nodes :=
        (List.filter_sublist nodes).eq_of_length heq
      have hpf : p ∈ nodes.filter (fun q => q.1 != current) := hfe.symm ▸ hp
      have := (List.mem_filter.1 hpf).2
      simp_all
  · apply Prod.Lex.right
    simp

/-- `Tree::remove_node` (src/widgets/tree.rs lines 260..280). -/
def Tree.remove_node (t : Tree) (node_key : TreeNodeKey) : Tree :=
  if containsKey t.nodes node_key then
    { t with nodes := removeLoop t.nodes [node_key] }
  else
    t

/-- `Tree::children_keys` (src/widgets/tree.rs lines 282..293): keys of the
entries whose parent is `parent_key`, in map order. -/
def Tree.children_keys (t : Tree) (parent_key : TreeNodeKey) : List TreeNodeKey :=
  (t.nodes.filter (fun p => p.2.parent == some parent_key)).map (fun p => p.1)

/-- `k` is `root` itself or a transitive descendant of `root` in `m`, walking
the parent links.  The `p < k` guard makes the walk total; it never cuts a
walk short on a map the tree code can build, because parents always receive
strictly smaller keys than their children (`ParentLt` below). -/
def isDesc (m : Nodes) (root : TreeNodeKey) (k : TreeNodeKey) : Bool :=
  (k == root) ||
    (match getNode m k with
     | some n =>
       match n.parent with
       | some p => if _h : p < k then isDesc m root p else false
       | none => false
     | none => false)
termination_by k

/-- Keys occur at most once in the map (always true of an `IndexMap`). -/
def UniqKeys (m : Nodes) : Prop := (m.map (fun p => p.1)).Nodup

/-- Every parent link points to a strictly smaller key (keys are handed out
in increasing order and a parent exists before its children). -/
def ParentLt (m : Nodes) : Prop :=
  ∀ p ∈ m, ∀ q, p.2.parent = some q → q < p.1

/-- Every parent link points to a present node. -/
def ParentPresent (m : Nodes) : Prop :=
  ∀ p ∈ m, ∀ q, p.2.parent = some q → containsKey m q = true

/-- All keys in the map are below the `next_key` counter. -/
def KeysLt (t : Tree) : Prop := ∀ p ∈ t.nodes, p.1 < t.next_key

/-- Well-formedness of a tree state; established by `Tree::default()` and kept
by every operation. -/
def TreeWF (t : Tree) : Prop :=
  UniqKeys t.nodes ∧ ParentLt t.nodes ∧ ParentPresent t.nodes ∧ KeysLt t

/-- Loop invariant for `removeLoop`: any node whose parent link dangles (its
parent is already removed) is itself scheduled on the stack. -/
def StackCovers (m : Nodes) (stack : List TreeNodeKey) : Prop :=
  ∀ p ∈ m, ∀ q, p.2.parent = some q → containsKey m q = true ∨ p.1 ∈ stack

/-- An insertion operation on the tree widget (the two public inserts). -/
inductive InsOp where
  | child (parent : Option TreeNodeKey)
  | after (sibling : TreeNodeKey)
deriving DecidableEq, Repr

/-- Run one insertion, keeping only the tree (a failed insert leaves the tree
unchanged; a panicking one surfaces as `Except.error`). -/
def applyInsOp (t : Tree) (op : InsOp) : Except String Tree :=
  match op with
  | .child parent => .ok (t.insert_child parent).2
  | .after sibling =>
    match t.insert_after sibling with
    | .ok r => .ok r.2
    | .error e => .error e

/-- Run a sequence of insertions. -/
def runIns (t : Tree) : List InsOp → Except String Tree
  | [] => .ok t
  | op :: rest =>
    match applyInsOp t op with
    | .ok t' => runIns t' rest
    | .error e => .error e

/-- Any operation of the tree widget's public mutating interface. -/
inductive TreeOp where
  | child (parent : Option TreeNodeKey)
  | after (sibling : TreeNodeKey)
  | removeKey (k : TreeNodeKey)
  | clearAll
deriving DecidableEq, Repr

/-- Run one operation, also reporting the key assigned by a successful
insertion (if any). -/
def applyTreeOp (t : Tree) (op : TreeOp) :
    Except String (Tree × List TreeNodeKey) :=
  match op with
  | .child parent =>
    let (k, t') := t.insert_child parent
    .ok (t', k.toList)
  | .after sibling =>
    match t.insert_after sibling with
    | .ok (k, t') => .ok (t', k.toList)
    | .error e => .error e
  | .removeKey k => .ok (t.remove_node k, [])
  | .clearAll => .ok (t.clear, [])

/-- Run a sequence of operations, collecting all assigned keys in order. -/
def runOps (t : Tree) : List TreeOp → Except String (Tree × List TreeNodeKey)
  | [] => .ok (t, [])
  | op :: rest =>
    match applyTreeOp t op with
    | .ok (t', ks) =>
      match runOps t' rest with
      | .ok (t'', ks') => .ok (t'', ks ++ ks')
      | .error e => .error e
    | .error e => .error e

end Cushy

namespace Win

/-! ## Part 2: the window dispatch engine of `src/window.rs`

`src/window.rs` drives dispatch through `crate::tree::Tree` (the widget
arena) and `crate::context::EventContext`, neither of which is under `src/`.
The surface those modules expose to `window.rs` — parent lookup, cached
layout rectangles, `widgets_at_point`, the hover and focus registers, and the
widget callbacks — is therefore modelled from the spec (sections 3, 4.1 and
4.3), while everything below that surface (`GooeyWindow::cursor_moved`,
`cursor_left`, `mouse_input`, `recursively_handle_event`, `MouseState`) is
translated directly from `src/window.rs`. -/

abbrev WidgetId := Nat
abbrev DeviceId := Nat
abbrev MouseButton := Nat

/-- A `Point<Px>` (pixel coordinates, signed). -/
structure Point where
  x : Int
  y : Int
deriving DecidableEq, Repr

/-- `location - rect.origin` arithmetic from the dispatch code. -/
def Point.sub (a b : Point) : Point := ⟨a.x - b.x, a.y - b.y⟩

/-- A cached layout rectangle (`Rect<Px>`). -/
structure Rect where
  origin : Point
  width : Int
  height : Int
deriving DecidableEq, Repr

/-- Modelled from the spec: a rectangle contains the points from its origin
(inclusive) to origin plus size (exclusive). -/
def Rect.containsPoint (r : Rect) (p : Point) : Bool :=
  decide (r.origin.x ≤ p.x) && decide (p.x < r.origin.x + r.width) &&
    decide (r.origin.y ≤ p.y) && decide (p.y < r.origin.y + r.height)

/-- Modelled from the spec: the read-only surface of the widget arena
(`crate::tree::Tree`, not under `src/`) and of the widget callbacks that
`src/window.rs` consults during one event: parent links, cached layout
rectangles (absent until laid out), the front-to-back candidate order, the
`hit_test` callback, and whether a widget's `mouse_down` callback reports
HANDLED (`EventHandling` is `HANDLED`/`IGNORED`, modelled as `Bool` with
`true = HANDLED`).  A fresh `TreeModel` accompanies every platform event,
because the application may relayout or mutate the arena between events. -/
structure TreeModel where
  parentOf : WidgetId → Option WidgetId
  layout : WidgetId → Option Rect
  paintOrder : List WidgetId
  hit_test : WidgetId → Point → Bool
  mouse_down_handled : WidgetId → Point → DeviceId → MouseButton → Bool

/-- Modelled from the spec (section 4.1): candidates in front-to-back order
restricted to nodes whose cached rectangle contains the point. -/
def widgets_at_point (t : TreeModel) (p : Point) : List WidgetId :=
  t.paintOrder.filter (fun w =>
    match t.layout w with
    | some r => r.containsPoint p
    | none => false)

/-- The per-device button map of `MouseState::devices`
(`HashMap<MouseButton, ManagedWidget>`), as an association list. -/
abbrev ButtonMap := List (MouseButton × WidgetId)

/-- `MouseState::devices` (`HashMap<DeviceId, HashMap<..>>`). -/
abbrev DeviceMap := List (DeviceId × ButtonMap)

/-- `HashMap::get` on a button map. -/
def lookupBtn (m : ButtonMap) (b : MouseButton) : Option WidgetId :=
  (m.find? (fun p => p.1 == b)).map (fun p => p.2)

/-- `HashMap::insert` on a button map (replaces any existing entry). -/
def insertBtn (m : ButtonMap) (b : MouseButton) (w : WidgetId) : ButtonMap :=
  (b, w) :: m.filter (fun p => p.1 != b)

/-- `HashMap::remove` on a button map. -/
def removeBtn (m : ButtonMap) (b : MouseButton) : ButtonMap :=
  m.filter (fun p => p.1 != b)

/-- `HashMap::get` on the device map. -/
def lookupDev (m : DeviceMap) (d : DeviceId) : Option ButtonMap :=
  (m.find? (fun p => p.1 == d)).map (fun p => p.2)

/-- `HashMap::insert` on the device map. -/
def insertDev (m : DeviceMap) (d : DeviceId) (btns : ButtonMap) : DeviceMap :=
  (d, btns) :: m.filter (fun p => p.1 != d)

/-- `HashMap::remove` on the device map. -/
def removeDev (m : DeviceMap) (d : DeviceId) : DeviceMap :=
  m.filter (fun p => p.1 != d)

/-- The capture entry for a `(device, button)` pair. -/
def captureLookup (m : DeviceMap) (d : DeviceId) (b : MouseButton) :
    Option WidgetId :=
  match lookupDev m d with
  | some btns => lookupBtn btns b
  | none => none

/-- Button keys occur at most once (true of every `HashMap`). -/
def ButtonsWF (m : ButtonMap) : Prop := (m.map (fun p => p.1)).Nodup

/-- Device keys occur at most once and every button map is well formed. -/
def DevicesWF (m : DeviceMap) : Prop :=
  (m.map (fun p => p.1)).Nodup ∧ ∀ p ∈ m, ButtonsWF p.2

/-- `MouseState` from `src/window.rs` lines 432..437 (`ManagedWidget`
handles appear as their `WidgetId`). -/
structure MouseState where
  location : Option Point
  widget : Option WidgetId
  devices : DeviceMap
deriving DecidableEq, Repr

/-- The dispatch-relevant window state: the tree's focus and hover registers
(modelled from the spec, section 3 `Registers`) plus `MouseState`. -/
structure WindowState where
  focused : Option WidgetId
  hovered : Option WidgetId
  mouse : MouseState
deriving DecidableEq, Repr

/-- The state right after `GooeyWindow::initialize` (lines 148..158):
empty `MouseState`, empty registers. -/
def startState : WindowState := ⟨none, none, ⟨none, none, []⟩⟩

/-- One observable callback delivery (or register clear) performed while
handling one platform event, in order. -/
inductive Delivered where
  | clearedFocus
  | mouseDown (w : WidgetId) (rel : Point) (d : DeviceId) (b : MouseButton)
  | mouseDrag (w : WidgetId) (rel : Point) (d : DeviceId) (b : MouseButton)
  | mouseUp (w : WidgetId) (rel : Option Point) (d : DeviceId) (b : MouseButton)
  | hover (w : WidgetId) (rel : Point)
  | unhover (w : WidgetId)
deriving DecidableEq, Repr

/-- `recursively_handle_event` (src/window.rs lines 415..425) with the
callback abstracted to its HANDLED/IGNORED result: HANDLED stops with the
current widget, IGNORED retries on the parent, a root that ignores drops the
event.  The `p < w` guard keeps the recursion total; it never fires on a real
arena, whose parents have smaller ids than their children. -/
def recursively_handle_event (parentOf : WidgetId → Option WidgetId)
    (each_widget : WidgetId → Bool) (w : WidgetId) : Option WidgetId :=
  if each_widget w then some w
  else
    match parentOf w with
    | some p =>
      if _h : p < w then recursively_handle_event parentOf each_widget p
      else none
    | none => none
termination_by w

/-- The chain of widgets `recursively_handle_event` may visit, starting
target first (same guard as above). -/
def ancestorChain (parentOf : WidgetId → Option WidgetId) (w : WidgetId) :
    List WidgetId :=
  w :: (match parentOf w with
    | some p => if _h : p < w then ancestorChain parentOf p else []
    | none => [])
termination_by w

/-- The `mouse_down` bubbling of `GooeyWindow::mouse_input` lines 358..365:
each visited widget's relative position is its rectangle origin subtracted
from the cursor location, with `last_rendered_at().expect("passed hit test")`
panicking (modelled as `Except.error`) when the rectangle is absent.  Returns
the deliveries made and the resolved handler. -/
def bubbleMouseDown (t : TreeModel) (loc : Point) (d : DeviceId)
    (b : MouseButton) (w : WidgetId) :
    Except String (List Delivered × Option WidgetId) :=
  match t.layout w with
  | none => .error "passed hit test"
  | some r =>
    let rel := loc.sub r.origin
    let dv := Delivered.mouseDown w rel d b
    if t.mouse_down_handled w rel d b then .ok ([dv], some w)
    else
      match t.parentOf w with
      | some p =>
        if _h : p < w then
          match bubbleMouseDown t loc d b p with
          | .ok (ds, res) => .ok (dv :: ds, res)
          | .error e => .error e
        else .ok ([dv], none)
      | none => .ok ([dv], none)
termination_by w

/-- The mouse-drag half of `GooeyWindow::cursor_moved` (lines 295..302):
deliver `mouse_drag` to every captured `(button, widget)` entry of the
device, with `last_rendered_at().expect("passed hit test")` panicking when a
captured widget has no cached rectangle. -/
def dragDeliver (t : TreeModel) (loc : Point) (d : DeviceId) :
    ButtonMap → Except String (List Delivered)
  | [] => .ok []
  | (b, wgt) :: rest =>
    match t.layout wgt with
    | none => .error "passed hit test"
    | some r =>
      match dragDeliver t loc d rest with
      | .ok ds => .ok (Delivered.mouseDrag wgt (loc.sub r.origin) d b :: ds)
      | .error e => .error e

/-- Modelled from the spec (hover protocol, section 4.3): setting the hover
register delivers `unhover` to the previous holder (when different) strictly
before `hover` to the new one. -/
def setHover (s : WindowState) (w : WidgetId) (rel : Point) :
    WindowState × List Delivered :=
  match s.hovered with
  | some old =>
    if old == w then ({ s with hovered := some w }, [Delivered.hover w rel])
    else ({ s with hovered := some w },
      [Delivered.unhover old, Delivered.hover w rel])
  | none => ({ s with hovered := some w }, [Delivered.hover w rel])

/-- Modelled from the spec: `EventContext::clear_hover` empties the hover
register, notifying the previous holder. -/
def clearHover (s : WindowState) : WindowState × List Delivered :=
  match s.hovered with
  | some old => ({ s with hovered := none }, [Delivered.unhover old])
  | none => (s, [])

/-- The hover scan of `GooeyWindow::cursor_moved` (lines 308..322): walk
`widgets_at_point` front to back, compute each candidate's relative position
from its cached rectangle, and stop at the first whose `hit_test` callback
returns true. -/
def hoverScan (t : TreeModel) (p : Point) : Option (WidgetId × Point) :=
  (widgets_at_point t p).findSome? (fun w =>
    match t.layout w with
    | some r =>
      let rel := p.sub r.origin
      if t.hit_test w rel then some (w, rel) else none
    | none => none)

/-- REFINEMENT SPEC, written from the spec's words for claim C1, not from the
source: the mouse-down target is resolved "by a fresh hit-test from the
current cursor position, scanning candidates front-to-back and choosing the
first widget whose `hit_test()` returns true". -/
def specFreshHitTestTarget (t : TreeModel) (p : Point) : Option WidgetId :=
  (widgets_at_point t p).find? (fun w =>
    match t.layout w with
    | some r => t.hit_test w (p.sub r.origin)
    | none => false)

/-- `ElementState` (pressed/released). -/
inductive ElementState where
  | pressed
  | released
deriving DecidableEq, Repr

/-- The platform events of `src/window.rs` that touch the mouse dispatch
state (keyboard, IME and wheel events never read or write `MouseState` or
the focus-clearing path, so they are outside this model). -/
inductive Event where
  | cursorMoved (d : DeviceId) (p : Point)
  | cursorLeft (d : DeviceId)
  | mouseInput (d : DeviceId) (st : ElementState) (b : MouseButton)
deriving DecidableEq, Repr

/-- `GooeyWindow::cursor_moved` (src/window.rs lines 285..328). -/
def cursor_moved (t : TreeModel) (s : WindowState) (d : DeviceId) (p : Point) :
    Except String (WindowState × List Delivered) :=
  let s1 := { s with mouse := { s.mouse with location := some p } }
  match lookupDev s1.mouse.devices d with
  | some btns =>
    match dragDeliver t p d btns with
    | .ok ds => .ok (s1, ds)
    | .error e => .error e
  | none =>
    let s2 := { s1 with mouse := { s1.mouse with widget := none } }
    match hoverScan t p with
    | some (w, rel) =>
      let (s3, ds) := setHover s2 w rel
      .ok ({ s3 with mouse := { s3.mouse with widget := some w } }, ds)
    | none =>
      let (s3, ds) := clearHover s2
      .ok (s3, ds)

/-- `GooeyWindow::cursor_left` (src/window.rs lines 330..341): `take` the
hovered-widget cache and clear the hover register if it was set. -/
def cursor_left (s : WindowState) : WindowState × List Delivered :=
  let was := s.mouse.widget
  let s1 := { s with mouse := { s.mouse with widget := none } }
  match was with
  | some _ => clearHover s1
  | none => (s1, [])

/-- `GooeyWindow::mouse_input` (src/window.rs lines 343..399).  Pressed:
clear focus, then (when a location and a hovered widget are cached) bubble
`mouse_down` from the cached hovered widget, recording the resolved handler
in the capture map.  Released: look up and remove the capture entry for the
pair (dropping the device entry when its last button goes), then deliver
`mouse_up` with the relative position, or `none` when either the rectangle
or the location is unavailable. -/
def mouse_input (t : TreeModel) (s : WindowState) (d : DeviceId)
    (st : ElementState) (b : MouseButton) :
    Except String (WindowState × List Delivered) :=
  match st with
  | .pressed =>
    let s1 := { s with focused := none }
    match s1.mouse.location, s1.mouse.widget with
    | some loc, some hovered =>
      match bubbleMouseDown t loc d b hovered with
      | .error e => .error e
      | .ok (ds, res) =>
        match res with
        | some handler =>
          let btns := (lookupDev s1.mouse.devices d).getD []
          let devices' := insertDev s1.mouse.devices d (insertBtn btns b handler)
          .ok ({ s1 with mouse := { s1.mouse with devices := devices' } },
            Delivered.clearedFocus :: ds)
        | none => .ok (s1, Delivered.clearedFocus :: ds)
    | _, _ => .ok (s1, [Delivered.clearedFocus])
  | .released =>
    match lookupDev s.mouse.devices d with
    | none => .ok (s, [])
    | some btns =>
      match lookupBtn btns b with
      | none => .ok (s, [])
      | some handler =>
        let btns' := removeBtn btns b
        let devices' :=
          if btns'.isEmpty then removeDev s.mouse.devices d
          else insertDev s.mouse.devices d btns'
        let rel : Option Point :=
          match t.layout handler, s.mouse.location with
          | some r, some loc => some (loc.sub r.origin)
          | _, _ => none
        .ok ({ s with mouse := { s.mouse with devices := devices' } },
          [Delivered.mouseUp handler rel d b])

/-- One platform event, dispatched as `src/window.rs` does. -/
def step (t : TreeModel) (s : WindowState) (e : Event) :
    Except String (WindowState × List Delivered) :=
  match e with
  | .cursorMoved d p => cursor_moved t s d p
  | .cursorLeft _ => .ok (cursor_left s)
  | .mouseInput d st b => mouse_input t s d st b

/-- Run a sequence of events, each with the arena contents current at that
event (the application may relayout or mutate widgets between events). -/
def runEvents : WindowState → List (TreeModel × Event) → Except String WindowState
  | s, [] => .ok s
  | s, (t, e) :: rest =>
    match step t s e with
    | .ok (s', _) => runEvents s' rest
    | .error msg => .error msg

/-- The widgets that received `mouse_down`, in delivery order. -/
def mouseDownTargets (tr : List Delivered) : List WidgetId :=
  tr.filterMap (fun dv =>
    match dv with
    | Delivered.mouseDown w _ _ _ => some w
    | _ => none)

/-- The deliveries of a dispatch result (none when it panicked). -/
def deliveriesOf (r : Except String (WindowState × List Delivered)) :
    List Delivered :=
  match r with
  | .ok (_, tr) => tr
  | .error _ => []

/-- Did the dispatch complete without a panic? -/
def isOkE (r : Except String (WindowState × List Delivered)) : Bool :=
  match r with
  | .ok _ => true
  | .error _ => false

/-- A concrete two-widget arena used by the counterexamples: widget 1 fills
the rectangle from (0,0) to (10,10), widget 2 the one from (100,100) to
(110,110); both are interactive and handle `mouse_down`. -/
def cexTreeA : TreeModel where
  parentOf := fun _ => none
  layout := fun w =>
    if w = 1 then some ⟨⟨0, 0⟩, 10, 10⟩
    else if w = 2 then some ⟨⟨100, 100⟩, 10, 10⟩
    else none
  paintOrder := [1, 2]
  hit_test := fun _ _ => true
  mouse_down_handled := fun _ _ _ _ => true

/-- The same arena after widget 1 was unmounted mid-gesture: it no longer has
a cached rectangle. -/
def cexTreeB : TreeModel where
  parentOf := fun _ => none
  layout := fun w => if w = 2 then some ⟨⟨100, 100⟩, 10, 10⟩ else none
  paintOrder := [2]
  hit_test := fun _ _ => true
  mouse_down_handled := fun _ _ _ _ => true



end Win

namespace Cushy

/-! ## Part 3: theorems about the `Tree` collection widget -/

theorem containsKey_shiftRemove_self (m : Nodes) (k : TreeNodeKey) :
    containsKey (shiftRemove m k) k = false := by
  simp [containsKey, shiftRemove, List.any_eq_true]

theorem removeLoop_sublist (m : Nodes) (stack : List TreeNodeKey) :
    List.Sublist (removeLoop m stack) m := by
  induction m, stack using removeLoop.induct with
  | case1 m => rw [removeLoop]
  | case2 m k rest h nodes' children ih =>
    rw [removeLoop]
    simp only [h, dite_true]
    exact List.Sublist.trans ih (List.filter_sublist m)
  | case3 m k rest h ih =>
    rw [removeLoop]
    simp only [h, dite_false]
    exact ih

theorem containsKey_eq_false_of_sublist {m' m : Nodes} (h : List.Sublist m' m)
    {k : TreeNodeKey} (hk : containsKey m k = false) :
    containsKey m' k = false := by
  cases hb : containsKey m' k with
  | false => rfl
  | true =>
    exfalso
    rcases List.any_eq_true.1 hb with ⟨p, hp, hpk⟩
    have : containsKey m k = true := List.any_eq_true.2 ⟨p, h.mem hp, hpk⟩
    simp [this] at hk

theorem containsKey_remove_node (t : Tree) (k : TreeNodeKey) :
    containsKey (t.remove_node k).nodes k = false := by
  by_cases h : containsKey t.nodes k
  · rw [Tree.remove_node, if_pos h, removeLoop]
    simp only [h, dite_true]
    exact containsKey_eq_false_of_sublist
      ((removeLoop_sublist _ _).trans (List.Sublist.refl _))
      (containsKey_shiftRemove_self t.nodes k)
  · rw [Tree.remove_node, if_neg h]
    simpa using h

/-- Claim C9 (confirmed): removal is idempotent.  `remove_node` on an absent
key leaves the tree state unchanged entirely (so no node's `unmounted` could
run again and no error is produced), and removing the same key twice equals
removing it once. -/
theorem claim_C9 (t : Tree) (k : TreeNodeKey) :
    (t.remove_node k).remove_node k = t.remove_node k ∧
    (containsKey t.nodes k = false → t.remove_node k = t) := by
  refine ⟨?_, ?_⟩
  · rw [Tree.remove_node, if_neg (by simp [containsKey_remove_node])]
  · intro h
    rw [Tree.remove_node, if_neg (by simp [h])]

/-- Witness for C9 at a concrete input: key 5 is absent from a one-node
tree, and the conjunct applies. -/
theorem claim_C9_witness :
    ({ nodes := [(0, ⟨none, 0⟩)], next_key := 1 } : Tree).remove_node 5 =
      { nodes := [(0, ⟨none, 0⟩)], next_key := 1 } :=
  (claim_C9 { nodes := [(0, ⟨none, 0⟩)], next_key := 1 } 5).2 (by decide)

theorem getNode_cons (p : TreeNodeKey × TreeNode) (l : Nodes) (k : TreeNodeKey) :
    getNode (p :: l) k = if p.1 = k then some p.2 else getNode l k := by
  by_cases hp : p.1 = k
  · simp [getNode, List.find?_cons, hp]
  · simp [getNode, List.find?_cons, hp]

theorem shiftRemove_cons (p : TreeNodeKey × TreeNode) (l : Nodes)
    (x : TreeNodeKey) :
    shiftRemove (p :: l) x =
      if p.1 = x then shiftRemove l x else p :: shiftRemove l x := by
  by_cases hp : p.1 = x <;> simp [shiftRemove, List.filter_cons, hp]

theorem containsKey_cons (p : TreeNodeKey × TreeNode) (l : Nodes)
    (k : TreeNodeKey) :
    containsKey (p :: l) k = ((p.1 == k) || containsKey l k) := by
  simp [containsKey, List.any_cons]

theorem containsKey_eq_isSome_getNode (m : Nodes) (k : TreeNodeKey) :
    containsKey m k = (getNode m k).isSome := by
  induction m with
  | nil => rfl
  | cons p rest ih =>
    rw [getNode_cons, containsKey_cons]
    by_cases hp : p.1 = k
    · simp [hp]
    · rw [if_neg hp, show (p.1 == k) = false by simp [hp], Bool.false_or]
      exact ih

theorem getNode_eq_none_iff (m : Nodes) (k : TreeNodeKey) :
    getNode m k = none ↔ containsKey m k = false := by
  rw [containsKey_eq_isSome_getNode]
  cases h : getNode m k <;> simp

theorem mem_of_getNode {m : Nodes} {k : TreeNodeKey} {n : TreeNode}
    (h : getNode m k = some n) : (k, n) ∈ m := by
  induction m with
  | nil => simp [getNode] at h
  | cons p rest ih =>
    rw [getNode_cons] at h
    by_cases hp : p.1 = k
    · rw [if_pos hp] at h
      have hv : p.2 = n := by injection h
      have hpe : p = (k, n) := by
        rcases p with ⟨a, b⟩
        simp_all
      rw [← hpe]
      exact List.mem_cons_self _ _
    · rw [if_neg hp] at h
      exact List.mem_cons_of_mem _ (ih h)

theorem getNode_of_mem_uniq {m : Nodes} (hu : UniqKeys m) {k : TreeNodeKey}
    {n : TreeNode} (h : (k, n) ∈ m) : getNode m k = some n := by
  induction m with
  | nil => simp at h
  | cons p rest ih =>
    rcases List.mem_cons.1 h with hh | ht
    · rw [← hh, getNode_cons, if_pos rfl]
    · have hne : p.1 ≠ k := by
        intro he
        have hmem : k ∈ rest.map (fun q => q.1) := List.mem_map.2 ⟨(k, n), ht, rfl⟩
        have := (List.nodup_cons.1 hu).1
        simp_all
      have hu' : UniqKeys rest := (List.nodup_cons.1 hu).2
      rw [getNode_cons, if_neg hne]
      exact ih hu' ht

theorem getNode_shiftRemove_self (m : Nodes) (x : TreeNodeKey) :
    getNode (shiftRemove m x) x = none :=
  (getNode_eq_none_iff _ _).2 (containsKey_shiftRemove_self m x)

theorem getNode_shiftRemove_ne (m : Nodes) {x k : TreeNodeKey} (h : k ≠ x) :
    getNode (shiftRemove m x) k = getNode m k := by
  induction m with
  | nil => rfl
  | cons p rest ih =>
    rw [shiftRemove_cons]
    by_cases hp : p.1 = x
    · have hnk : ¬ p.1 = k := by
        rw [hp]
        exact fun hh => h hh.symm
      rw [if_pos hp, ih, getNode_cons, if_neg hnk]
    · rw [if_neg hp, getNode_cons, getNode_cons]
      by_cases hpk : p.1 = k
      · rw [if_pos hpk, if_pos hpk]
      · rw [if_neg hpk, if_neg hpk, ih]

theorem containsKey_shiftRemove_ne (m : Nodes) {x q : TreeNodeKey}
    (h : q ≠ x) : containsKey (shiftRemove m x) q = containsKey m q := by
  rw [containsKey_eq_isSome_getNode, containsKey_eq_isSome_getNode,
    getNode_shiftRemove_ne m h]


theorem isDesc_iff (m : Nodes) (r k : TreeNodeKey) :
    isDesc m r k = true ↔
      k = r ∨ ∃ n p, getNode m k = some n ∧ n.parent = some p ∧ p < k ∧
        isDesc m r p = true := by
  conv_lhs => rw [isDesc]
  cases hg : getNode m k with
  | none => simp [hg]
  | some n =>
    cases hp : n.parent with
    | none => simp [hg, hp]
    | some p =>
      by_cases hlt : p < k
      · simp only [hg, hp, hlt, dite_true, Bool.or_eq_true, beq_iff_eq]
        constructor
        · rintro (he | hd)
          · exact Or.inl he
          · exact Or.inr ⟨n, p, rfl, hp, hlt, hd⟩
        · rintro (he | ⟨n', p', hn', hp', _, hd'⟩)
          · exact Or.inl he
          · refine Or.inr ?_
            have hnn : n' = n := by simp_all
            subst hnn
            have hpp : p' = p := by simp_all
            subst hpp
            exact hd'
      · simp only [hg, hp, hlt, dite_false, Bool.or_false, beq_iff_eq]
        constructor
        · exact fun he => Or.inl he
        · rintro (he | ⟨n', p', hn', hp', hlt', _⟩)
          · exact he
          · exfalso
            have hnn : n' = n := by simp_all
            subst hnn
            have hpp : p' = p := by simp_all
            exact hlt (hpp ▸ hlt')

theorem isDesc_self (m : Nodes) (r : TreeNodeKey) : isDesc m r r = true :=
  (isDesc_iff m r r).2 (Or.inl rfl)

theorem isDesc_step {m : Nodes} {r k p : TreeNodeKey} {n : TreeNode}
    (hg : getNode m k = some n) (hp : n.parent = some p) (hlt : p < k)
    (hd : isDesc m r p = true) : isDesc m r k = true :=
  (isDesc_iff m r k).2 (Or.inr ⟨n, p, hg, hp, hlt, hd⟩)

theorem isDesc_of_shiftRemove {m : Nodes} {x r : TreeNodeKey} :
    ∀ k, isDesc (shiftRemove m x) r k = true → isDesc m r k = true := by
  intro k
  induction k using Nat.strong_induction_on with
  | _ k ih =>
    intro h
    rcases (isDesc_iff _ r k).1 h with he | ⟨n, p, hg, hp, hlt, hd⟩
    · exact he ▸ isDesc_self m r
    · have hkx : k ≠ x := by
        intro he
        rw [he, getNode_shiftRemove_self] at hg
        exact Option.noConfusion hg
      rw [getNode_shiftRemove_ne m hkx] at hg
      exact isDesc_step hg hp hlt (ih p hlt hd)

theorem isDesc_append_top {m : Nodes} {c r : TreeNodeKey} {nc : TreeNode}
    (hg : getNode m c = some nc) (hp : nc.parent = some r) (hlt : r < c) :
    ∀ k, isDesc m c k = true → isDesc m r k = true := by
  intro k
  induction k using Nat.strong_induction_on with
  | _ k ih =>
    intro h
    rcases (isDesc_iff m c k).1 h with he | ⟨n, p, hg', hp', hlt', hd'⟩
    · exact he ▸ isDesc_step hg hp hlt (isDesc_self m r)
    · exact isDesc_step hg' hp' hlt' (ih p hlt' hd')

theorem isDesc_decompose {m : Nodes} {x : TreeNodeKey} :
    ∀ k, isDesc m x k = true → k ≠ x →
      ∃ c nc, getNode m c = some nc ∧ nc.parent = some x ∧ x < c ∧
        isDesc (shiftRemove m x) c k = true := by
  intro k
  induction k using Nat.strong_induction_on with
  | _ k ih =>
    intro h hkx
    rcases (isDesc_iff m x k).1 h with he | ⟨n, p, hg, hp, hlt, hd⟩
    · exact absurd he hkx
    · by_cases hpx : p = x
      · subst hpx
        exact ⟨k, n, hg, hp, hlt, isDesc_self _ k⟩
      · rcases ih p hlt hd hpx with ⟨c, nc, hgc, hpc, hltc, hdc⟩
        refine ⟨c, nc, hgc, hpc, hltc, ?_⟩
        exact isDesc_step ((getNode_shiftRemove_ne m hkx).symm ▸ hg) hp hlt hdc

theorem isDesc_shiftRemove_or {m : Nodes} {x s : TreeNodeKey} :
    ∀ k, isDesc m s k = true →
      isDesc (shiftRemove m x) s k = true ∨ isDesc m x k = true := by
  intro k
  induction k using Nat.strong_induction_on with
  | _ k ih =>
    intro h
    rcases (isDesc_iff m s k).1 h with he | ⟨n, p, hg, hp, hlt, hd⟩
    · exact Or.inl (by rw [he]; exact isDesc_self _ s)
    · by_cases hkx : k = x
      · exact Or.inr (hkx ▸ isDesc_self m x)
      · rcases ih p hlt hd with hl | hr
        · exact Or.inl
            (isDesc_step ((getNode_shiftRemove_ne m hkx).symm ▸ hg) hp hlt hl)
        · exact Or.inr (isDesc_step hg hp hlt hr)

theorem isDesc_of_absent {m : Nodes} {x : TreeNodeKey}
    (hx : containsKey m x = false) :
    ∀ k, isDesc m x k = true →
      k = x ∨ ∃ c nc, getNode m c = some nc ∧ nc.parent = some x ∧
        isDesc m c k = true := by
  intro k
  induction k using Nat.strong_induction_on with
  | _ k ih =>
    intro h
    rcases (isDesc_iff m x k).1 h with he | ⟨n, p, hg, hp, hlt, hd⟩
    · exact Or.inl he
    · by_cases hpx : p = x
      · subst hpx
        exact Or.inr ⟨k, n, hg, hp, isDesc_self m k⟩
      · rcases ih p hlt hd with he' | ⟨c, nc, hgc, hpc, hdc⟩
        · exact absurd he' hpx
        · exact Or.inr ⟨c, nc, hgc, hpc, isDesc_step hg hp hlt hdc⟩

theorem UniqKeys_shiftRemove {m : Nodes} (hu : UniqKeys m) (x : TreeNodeKey) :
    UniqKeys (shiftRemove m x) :=
  List.Nodup.sublist (List.Sublist.map _ (List.filter_sublist m)) hu

theorem ParentLt_shiftRemove {m : Nodes} (hlt : ParentLt m) (x : TreeNodeKey) :
    ParentLt (shiftRemove m x) :=
  fun p hp q hq => hlt p ((List.filter_sublist m).subset hp) q hq

/-- Splitting a descendant walk at the removed root: for `j ≠ k`, `j` descends
from `k` in `m` exactly when `j` descends, inside the map with `k` removed,
from some direct child of `k`. -/
theorem desc_split {m : Nodes} (hu : UniqKeys m) (hlt : ParentLt m)
    (k j : TreeNodeKey) (hjk : j ≠ k) :
    isDesc m k j = true ↔
      ∃ c, c ∈ ((shiftRemove m k).filter
          (fun p => p.2.parent == some k)).map (fun p => p.1) ∧
        isDesc (shiftRemove m k) c j = true := by
  constructor
  · intro hd
    rcases isDesc_decompose j hd hjk with ⟨c, nc, hgc, hpc, hltc, hdc⟩
    refine ⟨c, ?_, hdc⟩
    have hmem : (c, nc) ∈ m := mem_of_getNode hgc
    have hck : c ≠ k := Nat.ne_of_gt hltc
    have hmem' : (c, nc) ∈ shiftRemove m k := by
      rw [shiftRemove]
      exact List.mem_filter.2 ⟨hmem, by simp [hck]⟩
    exact List.mem_map.2 ⟨(c, nc), List.mem_filter.2 ⟨hmem', by simp [hpc]⟩, rfl⟩
  · rintro ⟨c, hc, hdc⟩
    rcases List.mem_map.1 hc with ⟨q, hqf, hqeq⟩
    rcases q with ⟨c', nc⟩
    simp only at hqeq
    subst hqeq
    have hqf' := List.mem_filter.1 hqf
    have hmem : (c', nc) ∈ m := (List.filter_sublist m).subset hqf'.1
    have hgc : getNode m c' = some nc := getNode_of_mem_uniq hu hmem
    have hpc : nc.parent = some k := by simpa using hqf'.2
    have hkc : k < c' := hlt (c', nc) hmem k hpc
    exact isDesc_append_top hgc hpc hkc j (isDesc_of_shiftRemove j hdc)

/-- The DFS loop of `remove_node` removes exactly the nodes reachable (via
`isDesc`) from some stack entry, and keeps every other entry untouched and in
order. -/
theorem removeLoop_eq (m : Nodes) (stack : List TreeNodeKey) :
    UniqKeys m → ParentLt m → StackCovers m stack →
    removeLoop m stack =
      m.filter (fun p => !(stack.any (fun s => isDesc m s p.1))) := by
  induction m, stack using removeLoop.induct with
  | case1 m =>
    intro _ _ _
    rw [removeLoop]
    simp
  | case2 m k rest h nodes' children ih =>
    intro hu hlt hc
    rw [removeLoop]
    simp only [h, dite_true]
    have hu' : UniqKeys (shiftRemove m k) := UniqKeys_shiftRemove hu k
    have hlt' : ParentLt (shiftRemove m k) := ParentLt_shiftRemove hlt k
    have hc' : StackCovers (shiftRemove m k)
        ((((shiftRemove m k).filter
          (fun p => p.2.parent == some k)).map (fun p => p.1)).reverse ++ rest) := by
      intro p hp q hq
      by_cases hqk : q = k
      · refine Or.inr (List.mem_append.2 (Or.inl ?_))
        rw [List.mem_reverse]
        refine List.mem_map.2 ⟨p, List.mem_filter.2 ⟨hp, by simp [hq, hqk]⟩, rfl⟩
      · have hpm : p ∈ m := (List.filter_sublist m).subset hp
        rcases hc p hpm q hq with hck | hstk
        · exact Or.inl (by rw [containsKey_shiftRemove_ne m hqk]; exact hck)
        · have hp1k : p.1 ≠ k := by
            have := (List.mem_filter.1 hp).2
            simp_all
          rcases List.mem_cons.1 hstk with he | hr
          · exact absurd he hp1k
          · exact Or.inr (List.mem_append.2 (Or.inr hr))
    have hstep : removeLoop (shiftRemove m k)
        ((((shiftRemove m k).filter
          (fun p => p.2.parent == some k)).map (fun p => p.1)).reverse ++ rest) =
        (shiftRemove m k).filter
          (fun p => !(((((shiftRemove m k).filter
              (fun q => q.2.parent == some k)).map (fun q => q.1)).reverse
                ++ rest).any (fun s => isDesc (shiftRemove m k) s p.1))) :=
      ih hu' hlt' hc'
    have hrest : (shiftRemove m k).filter
          (fun p => !(((((shiftRemove m k).filter
              (fun q => q.2.parent == some k)).map (fun q => q.1)).reverse
                ++ rest).any (fun s => isDesc (shiftRemove m k) s p.1))) =
        m.filter (fun p => !((k :: rest).any (fun s => isDesc m s p.1))) := by
      conv_lhs => rw [show shiftRemove m k = m.filter (fun p => p.1 != k) from rfl]
      rw [List.filter_filter]
      apply List.filter_congr
      intro p hp
      by_cases hpk : p.1 = k
      · have hdk : isDesc m k k = true := isDesc_self m k
        simp [hpk, List.any_cons, hdk]
      · have hg : (p.1 != k) = true := by simp [hpk]
        simp only [hg, Bool.and_true]
        refine congrArg (fun b => !b) ?_
        rw [Bool.eq_iff_iff, List.any_eq_true, List.any_eq_true]
        constructor
        · rintro ⟨s, hs, hds⟩
          rcases List.mem_append.1 hs with hch | hr
          · rw [List.mem_reverse] at hch
            refine ⟨k, List.mem_cons_self _ _, ?_⟩
            exact (desc_split hu hlt k p.1 hpk).2 ⟨s, hch, hds⟩
          · exact ⟨s, List.mem_cons_of_mem _ hr,
              isDesc_of_shiftRemove p.1 hds⟩
        · rintro ⟨s, hs, hds⟩
          rcases List.mem_cons.1 hs with he | hr
          · subst he
            rcases (desc_split hu hlt s p.1 hpk).1 hds with ⟨c, hcch, hcd⟩
            exact ⟨c, List.mem_append.2 (Or.inl (List.mem_reverse.2 hcch)), hcd⟩
          · rcases isDesc_shiftRemove_or (x := k) p.1 hds with hl | hk
            · exact ⟨s, List.mem_append.2 (Or.inr hr), hl⟩
            · rcases (desc_split hu hlt k p.1 hpk).1 hk with ⟨c, hcch, hcd⟩
              exact ⟨c, List.mem_append.2 (Or.inl (List.mem_reverse.2 hcch)), hcd⟩
    exact hstep.trans hrest
  | case3 m k rest h ih =>
    intro hu hlt hc
    rw [removeLoop]
    simp only [h, dite_false]
    have hcb : containsKey m k = false := by simpa using h
    have hc' : StackCovers m rest := by
      intro p hp q hq
      rcases hc p hp q hq with hck | hstk
      · exact Or.inl hck
      · rcases List.mem_cons.1 hstk with he | hr
        · exfalso
          have : containsKey m k = true :=
            List.any_eq_true.2 ⟨p, hp, by simp [he]⟩
          simp [this] at hcb
        · exact Or.inr hr
    rw [ih hu hlt hc']
    apply List.filter_congr
    intro p hp
    refine congrArg (fun b => !b) ?_
    cases hdk : isDesc m k p.1 with
    | false => simp [List.any_cons, hdk]
    | true =>
      rcases isDesc_of_absent hcb p.1 hdk with he | ⟨c, nc, hgc, hpc, hdc⟩
      · exfalso
        have : containsKey m k = true :=
          List.any_eq_true.2 ⟨p, hp, by simp [he]⟩
        simp [this] at hcb
      · have hmem := mem_of_getNode hgc
        rcases hc (c, nc) hmem k hpc with hck | hstk
        · simp [hck] at hcb
        · have hcknot : c ≠ k := by
            intro he
            have : containsKey m k = true :=
              List.any_eq_true.2 ⟨(c, nc), hmem, by simp [he]⟩
            simp [this] at hcb
          rcases List.mem_cons.1 hstk with he | hcrest
          · exact absurd he hcknot
          · have hany : rest.any (fun s => isDesc m s p.1) = true :=
              List.any_eq_true.2 ⟨c, hcrest, hdc⟩
            simp [List.any_cons, hdk, hany]

/-- `remove_node` on a well-formed tree removes exactly the nodes descending
from the removed key, keeping all others untouched and in order. -/
theorem remove_node_eq (t : Tree) (id : TreeNodeKey) (hu : UniqKeys t.nodes)
    (hlt : ParentLt t.nodes) (hpp : ParentPresent t.nodes) :
    t.remove_node id =
      { t with nodes := t.nodes.filter (fun p => !(isDesc t.nodes id p.1)) } := by
  by_cases h : containsKey t.nodes id
  · rw [Tree.remove_node, if_pos h]
    have hc : StackCovers t.nodes [id] :=
      fun p hp q hq => Or.inl (hpp p hp q hq)
    rw [removeLoop_eq t.nodes [id] hu hlt hc]
    congr 1
    apply List.filter_congr
    intro p _
    simp [List.any_cons]
  · rw [Tree.remove_node, if_neg h]
    have hall : ∀ p ∈ t.nodes, isDesc t.nodes id p.1 = false := by
      intro p hp
      cases hdk : isDesc t.nodes id p.1 with
      | false => rfl
      | true =>
        exfalso
        have hcb : containsKey t.nodes id = false := by simpa using h
        rcases isDesc_of_absent hcb p.1 hdk with he | ⟨c, nc, hgc, hpc, _⟩
        · have : containsKey t.nodes id = true :=
            List.any_eq_true.2 ⟨p, hp, by simp [he]⟩
          simp [this] at hcb
        · have := hpp (c, nc) (mem_of_getNode hgc) id hpc
          simp [this] at hcb
    have : t.nodes.filter (fun p => !(isDesc t.nodes id p.1)) = t.nodes := by
      rw [show t.nodes = t.nodes.filter (fun _ => true) from
        (List.filter_true t.nodes).symm]
      conv_lhs => rw [List.filter_filter]
      apply List.filter_congr
      intro p hp
      simp [hall p hp]
    rw [this]

theorem containsKey_append_one (m : Nodes) (e : TreeNodeKey × TreeNode)
    (k : TreeNodeKey) :
    containsKey (m ++ [e]) k = (containsKey m k || (e.1 == k)) := by
  simp [containsKey, List.any_append, List.any_cons]

theorem lt_next_of_contains {t : Tree} (hk : KeysLt t) {q : TreeNodeKey}
    (h : containsKey t.nodes q = true) : q < t.next_key := by
  rcases List.any_eq_true.1 h with ⟨p, hp, hpq⟩
  have h2 := hk p hp
  have hpq2 : p.1 = q := by simpa using hpq
  rw [hpq2] at h2
  exact h2

/-- What `insert_child` can do: either the parent resolves and the fresh key
`t.next_key` is appended (with the moral parent key), or the parent is
missing and nothing happens. -/
theorem insert_child_cases (t : Tree) (parent : Option TreeNodeKey) :
    (∃ pk d, (∀ q, pk = some q → containsKey t.nodes q = true) ∧
      t.insert_child parent =
        (some t.next_key,
          { nodes := t.nodes ++ [(t.next_key, ⟨pk, d⟩)],
            next_key := t.next_key + 1 })) ∨
    t.insert_child parent = (none, t) := by
  rcases parent with _ | p
  · exact Or.inl ⟨none, 0, by simp, rfl⟩
  · cases hg : getNode t.nodes p with
    | none =>
      refine Or.inr ?_
      simp [Tree.insert_child, hg]
    | some pn =>
      refine Or.inl ⟨some p, pn.depth + 1, ?_, ?_⟩
      · intro q hq
        cases hq
        rw [containsKey_eq_isSome_getNode, hg]
        rfl
      · simp [Tree.insert_child, hg, Tree.generate_next_key]

/-- What `insert_after` can do: panic on an absent sibling, refuse a root
sibling, or append the fresh key with the sibling's parent and depth. -/
theorem insert_after_cases (t : Tree) (s : TreeNodeKey) :
    (getNode t.nodes s = none ∧
      t.insert_after s = .error "called Option::unwrap on a None value") ∨
    (∃ sn, getNode t.nodes s = some sn ∧ sn.parent = none ∧
      t.insert_after s = .ok (none, t)) ∨
    (∃ sn pk, getNode t.nodes s = some sn ∧ sn.parent = some pk ∧
      t.insert_after s = .ok (some t.next_key,
        { nodes := t.nodes ++ [(t.next_key, ⟨some pk, sn.depth⟩)],
          next_key := t.next_key + 1 })) := by
  cases hg : getNode t.nodes s with
  | none =>
    refine Or.inl ⟨rfl, ?_⟩
    rw [Tree.insert_after, hg]
  | some sn =>
    cases hpar : sn.parent with
    | none =>
      refine Or.inr (Or.inl ⟨sn, rfl, hpar, ?_⟩)
      simp only [Tree.insert_after, hg, hpar]
    | some pk =>
      refine Or.inr (Or.inr ⟨sn, pk, rfl, hpar, ?_⟩)
      simp only [Tree.insert_after, hg, hpar, Tree.generate_next_key]

/-- Appending a brand-new node whose parent (if any) is present keeps the
tree well formed. -/
theorem TreeWF_append {t : Tree} (h : TreeWF t) (pk : Option TreeNodeKey)
    (d : Nat) (hpk : ∀ q, pk = some q → containsKey t.nodes q = true) :
    TreeWF { nodes := t.nodes ++ [(t.next_key, ⟨pk, d⟩)],
             next_key := t.next_key + 1 } := by
  obtain ⟨hu, hlt, hpp, hk⟩ := h
  refine ⟨?_, ?_, ?_, ?_⟩
  · simp only [UniqKeys, List.map_append, List.map_cons, List.map_nil]
    rw [List.nodup_append]
    refine ⟨hu, List.nodup_singleton _, ?_⟩
    intro a ha hb
    simp only [List.mem_singleton] at hb
    rcases List.mem_map.1 ha with ⟨p, hp, hpe⟩
    have hlt2 := hk p hp
    have hpe2 : p.1 = a := hpe
    rw [hpe2, hb] at hlt2
    exact Nat.lt_irrefl _ hlt2
  · intro p hp q hq
    rcases List.mem_append.1 hp with hold | hnew
    · exact hlt p hold q hq
    · rw [List.mem_singleton] at hnew
      subst hnew
      have hq2 : pk = some q := hq
      exact lt_next_of_contains hk (hpk q hq2)
  · intro p hp q hq
    rcases List.mem_append.1 hp with hold | hnew
    · have := hpp p hold q hq
      rw [containsKey_append_one]
      simp [this]
    · rw [List.mem_singleton] at hnew
      subst hnew
      have hq2 : pk = some q := hq
      rw [containsKey_append_one]
      simp [hpk q hq2]
  · intro p hp
    rcases List.mem_append.1 hp with hold | hnew
    · exact Nat.lt_succ_of_lt (hk p hold)
    · rw [List.mem_singleton] at hnew
      subst hnew
      exact Nat.lt_succ_self _

theorem TreeWF_default : TreeWF Tree.default := by
  refine ⟨?_, ?_, ?_, ?_⟩ <;> simp [UniqKeys, ParentLt, ParentPresent, KeysLt,
    Tree.default]

theorem TreeWF_insert_child {t : Tree} (h : TreeWF t)
    (parent : Option TreeNodeKey) : TreeWF (t.insert_child parent).2 := by
  rcases insert_child_cases t parent with ⟨pk, d, hpk, heq⟩ | heq
  · rw [heq]
    exact TreeWF_append h pk d hpk
  · rw [heq]
    exact h

theorem TreeWF_insert_after {t : Tree} (h : TreeWF t) (s : TreeNodeKey)
    {r : Option TreeNodeKey × Tree} (hr : t.insert_after s = .ok r) :
    TreeWF r.2 := by
  rcases insert_after_cases t s with ⟨_, heq⟩ | ⟨sn, _, _, heq⟩ |
      ⟨sn, pk, hg, hpar, heq⟩
  · rw [heq] at hr
    cases hr
  · rw [heq] at hr
    cases hr
    exact h
  · rw [heq] at hr
    cases hr
    have hcp : containsKey t.nodes pk = true :=
      h.2.2.1 (s, sn) (mem_of_getNode hg) pk hpar
    exact TreeWF_append h (some pk) sn.depth (fun q hq => by cases hq; exact hcp)

theorem TreeWF_runIns {t t' : Tree} (h : TreeWF t) {ops : List InsOp}
    (hrun : runIns t ops = .ok t') : TreeWF t' := by
  induction ops generalizing t with
  | nil =>
    rw [runIns] at hrun
    cases hrun
    exact h
  | cons op rest ih =>
    cases op with
    | child parent =>
      have hrun2 : runIns (t.insert_child parent).2 rest = .ok t' := by
        rw [← hrun, runIns, applyInsOp]
      exact ih (TreeWF_insert_child h parent) hrun2
    | after sibling =>
      cases hia : t.insert_after sibling with
      | error e =>
        simp only [runIns, applyInsOp, hia] at hrun
        cases hrun
      | ok r =>
        have hrun2 : runIns r.2 rest = .ok t' := by
          rw [← hrun, runIns, applyInsOp, hia]
        exact ih (TreeWF_insert_after h sibling hia) hrun2

/-- Claim C3 (confirmed): on any tree built by a sequence of inserts, for any
present key `id`, `remove_node id` removes exactly `id` and its transitive
descendants (`isDesc`), and keeps every other entry — node contents, parent
link and relative (child) order — unchanged, as does the key counter. -/
theorem claim_C3 (ops : List InsOp) (t : Tree)
    (hbuild : runIns Tree.default ops = .ok t) (id : TreeNodeKey)
    (hpres : containsKey t.nodes id = true) :
    t.remove_node id =
      { t with nodes := t.nodes.filter (fun p => !(isDesc t.nodes id p.1)) } := by
  have hwf : TreeWF t := TreeWF_runIns TreeWF_default hbuild
  exact remove_node_eq t id hwf.1 hwf.2.1 hwf.2.2.1

/-- Witness for C3: build root 0 with children 1, 2 and grandchild 3 under 1;
removing 1 removes exactly the entries with keys 1 and 3, in order. -/
theorem claim_C3_witness :
    runIns Tree.default
        [InsOp.child none, InsOp.child (some 0), InsOp.child (some 0),
          InsOp.child (some 1)] =
      .ok { nodes := [(0, ⟨none, 0⟩), (1, ⟨some 0, 1⟩), (2, ⟨some 0, 1⟩),
            (3, ⟨some 1, 2⟩)], next_key := 4 } ∧
    Tree.remove_node
        { nodes := [(0, ⟨none, 0⟩), (1, ⟨some 0, 1⟩), (2, ⟨some 0, 1⟩),
            (3, ⟨some 1, 2⟩)], next_key := 4 } 1 =
      { nodes := [(0, ⟨none, 0⟩), (2, ⟨some 0, 1⟩)], next_key := 4 } := by
  refine ⟨rfl, ?_⟩
  rw [claim_C3
    [InsOp.child none, InsOp.child (some 0), InsOp.child (some 0),
      InsOp.child (some 1)]
    { nodes := [(0, ⟨none, 0⟩), (1, ⟨some 0, 1⟩), (2, ⟨some 0, 1⟩),
        (3, ⟨some 1, 2⟩)], next_key := 4 }
    rfl 1 (by decide)]
  have h0 : isDesc [(0, ⟨none, 0⟩), (1, ⟨some 0, 1⟩), (2, ⟨some 0, 1⟩),
      (3, ⟨some 1, 2⟩)] 1 0 = false := by
    rw [isDesc]
    simp [getNode, List.find?_cons]
  have h1 : isDesc [(0, ⟨none, 0⟩), (1, ⟨some 0, 1⟩), (2, ⟨some 0, 1⟩),
      (3, ⟨some 1, 2⟩)] 1 1 = true := by
    rw [isDesc]
    simp
  have h2 : isDesc [(0, ⟨none, 0⟩), (1, ⟨some 0, 1⟩), (2, ⟨some 0, 1⟩),
      (3, ⟨some 1, 2⟩)] 1 2 = false := by
    rw [isDesc]
    simp [getNode, List.find?_cons, h0]
  have h3 : isDesc [(0, ⟨none, 0⟩), (1, ⟨some 0, 1⟩), (2, ⟨some 0, 1⟩),
      (3, ⟨some 1, 2⟩)] 1 3 = true := by
    rw [isDesc]
    simp [getNode, List.find?_cons, h1]
  simp [List.filter_cons, h0, h1, h2, h3]

theorem KeysLt_remove_node {t : Tree} (hk : KeysLt t) (k : TreeNodeKey) :
    KeysLt (t.remove_node k) ∧ (t.remove_node k).next_key = t.next_key := by
  rw [Tree.remove_node]
  by_cases hck : containsKey t.nodes k
  · rw [if_pos hck]
    refine ⟨?_, rfl⟩
    intro q hq
    exact hk q ((removeLoop_sublist _ _).subset hq)
  · rw [if_neg hck]
    exact ⟨hk, rfl⟩

/-- One (non-clear) operation keeps all keys below `next_key`, never lowers
`next_key`, and hands out only keys between the old and new `next_key`. -/
theorem applyTreeOp_keys {t : Tree} (hk : KeysLt t) {op : TreeOp}
    (hop : op ≠ TreeOp.clearAll) {t1 : Tree} {ks : List TreeNodeKey}
    (h : applyTreeOp t op = .ok (t1, ks)) :
    KeysLt t1 ∧ t.next_key ≤ t1.next_key ∧
      (∀ k ∈ ks, t.next_key ≤ k ∧ k < t1.next_key) ∧
      List.Pairwise (· < ·) ks := by
  cases op with
  | child parent =>
    rcases insert_child_cases t parent with ⟨pk, d, hpk, heq⟩ | heq
    · rw [applyTreeOp, heq] at h
      cases h
      refine ⟨?_, Nat.le_succ _, ?_, by simp [Option.toList]⟩
      · intro q hq
        rcases List.mem_append.1 hq with hold | hnew
        · exact Nat.lt_succ_of_lt (hk q hold)
        · rw [List.mem_singleton] at hnew
          subst hnew
          exact Nat.lt_succ_self _
      · intro k hks
        simp only [Option.toList, List.mem_singleton] at hks
        subst hks
        exact ⟨Nat.le_refl _, Nat.lt_succ_self _⟩
    · rw [applyTreeOp, heq] at h
      cases h
      exact ⟨hk, Nat.le_refl _, by simp [Option.toList], by simp [Option.toList]⟩
  | after sibling =>
    rcases insert_after_cases t sibling with ⟨_, heq⟩ | ⟨sn, _, _, heq⟩ |
        ⟨sn, pk, hg, hpar, heq⟩
    · rw [applyTreeOp, heq] at h
      cases h
    · rw [applyTreeOp, heq] at h
      cases h
      exact ⟨hk, Nat.le_refl _, by simp [Option.toList], by simp [Option.toList]⟩
    · rw [applyTreeOp, heq] at h
      cases h
      refine ⟨?_, Nat.le_succ _, ?_, by simp [Option.toList]⟩
      · intro q hq
        rcases List.mem_append.1 hq with hold | hnew
        · exact Nat.lt_succ_of_lt (hk q hold)
        · rw [List.mem_singleton] at hnew
          subst hnew
          exact Nat.lt_succ_self _
      · intro k hks
        simp only [Option.toList, List.mem_singleton] at hks
        subst hks
        exact ⟨Nat.le_refl _, Nat.lt_succ_self _⟩
  | removeKey k =>
    rw [applyTreeOp] at h
    cases h
    obtain ⟨hk2, hnk⟩ := KeysLt_remove_node hk k
    rw [hnk]
    exact ⟨hk2, Nat.le_refl _, by simp, by simp⟩
  | clearAll => exact absurd rfl hop

/-- Inversion of one `runOps` step. -/
theorem runOps_cons_ok {t : Tree} {op : TreeOp} {rest : List TreeOp}
    {t' : Tree} {ks : List TreeNodeKey}
    (h : runOps t (op :: rest) = .ok (t', ks)) :
    ∃ t1 ks0 ks1, applyTreeOp t op = .ok (t1, ks0) ∧
      runOps t1 rest = .ok (t', ks1) ∧ ks = ks0 ++ ks1 := by
  cases happ : applyTreeOp t op with
  | error e =>
    simp only [runOps, happ] at h
    cases h
  | ok r =>
    rcases r with ⟨t1, ks0⟩
    cases hrun : runOps t1 rest with
    | error e =>
      simp only [runOps, happ, hrun] at h
      cases h
    | ok r2 =>
      rcases r2 with ⟨t2, ks1⟩
      simp only [runOps, happ, hrun, Except.ok.injEq, Prod.mk.injEq] at h
      obtain ⟨he1, he2⟩ := h
      subst he1
      exact ⟨t1, ks0, ks1, rfl, hrun, he2.symm⟩

theorem runOps_pairwise {t : Tree} (hk : KeysLt t) {ops : List TreeOp}
    (hnc : TreeOp.clearAll ∉ ops) {t' : Tree} {ks : List TreeNodeKey}
    (h : runOps t ops = .ok (t', ks)) :
    (∀ k ∈ ks, t.next_key ≤ k) ∧ List.Pairwise (· < ·) ks ∧ KeysLt t' ∧
      t.next_key ≤ t'.next_key := by
  induction ops generalizing t ks with
  | nil =>
    rw [runOps] at h
    cases h
    exact ⟨by simp, by simp, hk, Nat.le_refl _⟩
  | cons op rest ih =>
    rcases runOps_cons_ok h with ⟨t1, ks0, ks1, happ, hrun, hkeq⟩
    have hopne : op ≠ TreeOp.clearAll := by
      intro he
      exact hnc (he ▸ List.mem_cons_self _ _)
    have hrest : TreeOp.clearAll ∉ rest := fun hm =>
      hnc (List.mem_cons_of_mem _ hm)
    obtain ⟨hk1, hle1, hks0, hpw0⟩ := applyTreeOp_keys hk hopne happ
    obtain ⟨hge1, hpw1, hk2, hle2⟩ := ih hk1 hrest hrun
    subst hkeq
    refine ⟨?_, ?_, hk2, Nat.le_trans hle1 hle2⟩
    · intro k hkm
      rcases List.mem_append.1 hkm with h0 | h1
      · exact (hks0 k h0).1
      · exact Nat.le_trans hle1 (hge1 k h1)
    · rw [List.pairwise_append]
      refine ⟨hpw0, hpw1, ?_⟩
      intro a ha b hb
      exact Nat.lt_of_lt_of_le (hks0 a ha).2 (hge1 b hb)

/-- Claim C5, amended (corrected): over any sequence of inserts and removals
— `clear` excluded — starting from `Tree::default()`, the keys assigned to
successfully inserted nodes are strictly increasing in order of assignment,
hence pairwise distinct: no key is assigned to two nodes and a removed key is
never assigned again.  (`clear` resets `next_key`, which breaks the claim as
originally stated; see the counterexample.) -/
theorem claim_C5_amended {ops : List TreeOp} (hnc : TreeOp.clearAll ∉ ops)
    {t' : Tree} {ks : List TreeNodeKey}
    (h : runOps Tree.default ops = .ok (t', ks)) :
    List.Pairwise (· < ·) ks :=
  (runOps_pairwise (by simp [KeysLt, Tree.default]) hnc h).2.1

/-- Witness for the amended C5: insert a root and a child, remove the child,
insert another child: assigned keys are 0, 1, 2 — strictly increasing, so
the removed key 1 is not handed out again. -/
theorem claim_C5_amended_witness :
    List.Pairwise (· < ·) ([0, 1, 2] : List TreeNodeKey) := by
  have hrun : runOps Tree.default
      [TreeOp.child none, TreeOp.child (some 0), TreeOp.removeKey 1,
        TreeOp.child (some 0)] =
      .ok ({ nodes := [(0, ⟨none, 0⟩), (2, ⟨some 0, 1⟩)], next_key := 3 },
        [0, 1, 2]) := by
    simp [runOps, applyTreeOp, Tree.insert_child, Tree.insert_after,
      Tree.remove_node, removeLoop, Tree.default, getNode, containsKey,
      shiftRemove, Tree.generate_next_key, Option.toList]
  exact claim_C5_amended (by decide) hrun

/-- Counterexample to C5 as stated: with `clear` in the sequence, key 0 is
assigned to two different nodes (and the first node carrying key 0 was
removed by the clear, so a removed key is assigned again). -/
theorem claim_C5_counterexample :
    runOps Tree.default [TreeOp.child none, TreeOp.clearAll, TreeOp.child none] =
      .ok ({ nodes := [(0, ⟨none, 0⟩)], next_key := 1 }, [0, 0]) ∧
    ¬ List.Pairwise (· < ·) ([0, 0] : List TreeNodeKey) := by
  refine ⟨rfl, ?_⟩
  intro hpw
  have h00 := List.rel_of_pairwise_cons hpw (List.mem_singleton.2 rfl)
  exact Nat.lt_irrefl 0 h00


/-- Claim C6 is a code bug: `Tree::insert_after` documents that it returns
`None` when the given node does not exist, but its first statement is
`self.nodes.lock().get(sibling).unwrap()`, which panics on a stale key.  The
concrete run below inserts a root and a child, removes the child, and then
calls `insert_after` with the removed child's key: the model reaches the
panic.  The other two operations named by the claim behave as the claim says
on the same stale key: `remove_node` is a no-op and `children_keys` is empty. -/
theorem claim_C6_code_bug :
    runOps Tree.default
        [TreeOp.child none, TreeOp.child (some 0), TreeOp.removeKey 1,
          TreeOp.after 1] =
      Except.error "called Option::unwrap on a None value" ∧
    Tree.remove_node { nodes := [(0, ⟨none, 0⟩)], next_key := 2 } 1 =
      { nodes := [(0, ⟨none, 0⟩)], next_key := 2 } ∧
    Tree.children_keys { nodes := [(0, ⟨none, 0⟩)], next_key := 2 } 1 = [] := by
  refine ⟨?_, ?_, by decide⟩
  · simp [runOps, applyTreeOp, Tree.insert_child, Tree.insert_after,
      Tree.remove_node, removeLoop, Tree.default, getNode, containsKey,
      shiftRemove, Tree.generate_next_key]
  · rw [Tree.remove_node, if_neg (by decide)]

end Cushy

namespace Win

/-! ## Part 4: theorems about the window dispatch engine -/

theorem lookupBtn_cons (p : MouseButton × WidgetId) (l : ButtonMap)
    (b : MouseButton) :
    lookupBtn (p :: l) b = if p.1 = b then some p.2 else lookupBtn l b := by
  by_cases hp : p.1 = b <;> simp [lookupBtn, List.find?_cons, hp]

theorem lookupBtn_filter_self (m : ButtonMap) (x : MouseButton) :
    lookupBtn (m.filter (fun p => p.1 != x)) x = none := by
  induction m with
  | nil => rfl
  | cons p rest ih =>
    rw [List.filter_cons]
    by_cases hp : p.1 = x
    · rw [if_neg (by simp [hp])]
      exact ih
    · rw [if_pos (by simp [hp]), lookupBtn_cons, if_neg hp]
      exact ih

theorem lookupBtn_filter_ne (m : ButtonMap) {x b : MouseButton} (h : b ≠ x) :
    lookupBtn (m.filter (fun p => p.1 != x)) b = lookupBtn m b := by
  induction m with
  | nil => rfl
  | cons p rest ih =>
    rw [List.filter_cons]
    by_cases hp : p.1 = x
    · rw [if_neg (by simp [hp]), ih, lookupBtn_cons,
        if_neg (by rw [hp]; exact fun hh => h hh.symm)]
    · rw [if_pos (by simp [hp]), lookupBtn_cons, lookupBtn_cons]
      by_cases hpb : p.1 = b
      · rw [if_pos hpb, if_pos hpb]
      · rw [if_neg hpb, if_neg hpb, ih]

theorem lookupBtn_insertBtn_self (m : ButtonMap) (b : MouseButton)
    (w : WidgetId) : lookupBtn (insertBtn m b w) b = some w := by
  rw [insertBtn, lookupBtn_cons, if_pos rfl]

theorem lookupBtn_insertBtn_ne (m : ButtonMap) {b b' : MouseButton}
    (h : b' ≠ b) (w : WidgetId) :
    lookupBtn (insertBtn m b w) b' = lookupBtn m b' := by
  rw [insertBtn, lookupBtn_cons, if_neg (fun hh => h hh.symm)]
  exact lookupBtn_filter_ne m h

theorem lookupBtn_removeBtn_self (m : ButtonMap) (b : MouseButton) :
    lookupBtn (removeBtn m b) b = none :=
  lookupBtn_filter_self m b

theorem lookupBtn_removeBtn_ne (m : ButtonMap) {b b' : MouseButton}
    (h : b' ≠ b) : lookupBtn (removeBtn m b) b' = lookupBtn m b' :=
  lookupBtn_filter_ne m h

theorem lookupDev_cons (p : DeviceId × ButtonMap) (l : DeviceMap)
    (d : DeviceId) :
    lookupDev (p :: l) d = if p.1 = d then some p.2 else lookupDev l d := by
  by_cases hp : p.1 = d <;> simp [lookupDev, List.find?_cons, hp]

theorem lookupDev_filter_self (m : DeviceMap) (x : DeviceId) :
    lookupDev (m.filter (fun p => p.1 != x)) x = none := by
  induction m with
  | nil => rfl
  | cons p rest ih =>
    rw [List.filter_cons]
    by_cases hp : p.1 = x
    · rw [if_neg (by simp [hp])]
      exact ih
    · rw [if_pos (by simp [hp]), lookupDev_cons, if_neg hp]
      exact ih

theorem lookupDev_filter_ne (m : DeviceMap) {x d : DeviceId} (h : d ≠ x) :
    lookupDev (m.filter (fun p => p.1 != x)) d = lookupDev m d := by
  induction m with
  | nil => rfl
  | cons p rest ih =>
    rw [List.filter_cons]
    by_cases hp : p.1 = x
    · rw [if_neg (by simp [hp]), ih, lookupDev_cons,
        if_neg (by rw [hp]; exact fun hh => h hh.symm)]
    · rw [if_pos (by simp [hp]), lookupDev_cons, lookupDev_cons]
      by_cases hpd : p.1 = d
      · rw [if_pos hpd, if_pos hpd]
      · rw [if_neg hpd, if_neg hpd, ih]

theorem lookupDev_insertDev_self (m : DeviceMap) (d : DeviceId)
    (btns : ButtonMap) : lookupDev (insertDev m d btns) d = some btns := by
  rw [insertDev, lookupDev_cons, if_pos rfl]

theorem lookupDev_insertDev_ne (m : DeviceMap) {d d' : DeviceId}
    (h : d' ≠ d) (btns : ButtonMap) :
    lookupDev (insertDev m d btns) d' = lookupDev m d' := by
  rw [insertDev, lookupDev_cons, if_neg (fun hh => h hh.symm)]
  exact lookupDev_filter_ne m h

theorem lookupDev_removeDev_self (m : DeviceMap) (d : DeviceId) :
    lookupDev (removeDev m d) d = none :=
  lookupDev_filter_self m d

theorem lookupDev_removeDev_ne (m : DeviceMap) {d d' : DeviceId}
    (h : d' ≠ d) : lookupDev (removeDev m d) d' = lookupDev m d' :=
  lookupDev_filter_ne m h

theorem mem_of_lookupDev {m : DeviceMap} {d : DeviceId} {btns : ButtonMap}
    (h : lookupDev m d = some btns) : (d, btns) ∈ m := by
  induction m with
  | nil => simp [lookupDev] at h
  | cons p rest ih =>
    rw [lookupDev_cons] at h
    by_cases hp : p.1 = d
    · rw [if_pos hp] at h
      have hv : p.2 = btns := by injection h
      have hpe : p = (d, btns) := by
        rcases p with ⟨a, c⟩
        simp_all
      rw [← hpe]
      exact List.mem_cons_self _ _
    · rw [if_neg hp] at h
      exact List.mem_cons_of_mem _ (ih h)

theorem lookupBtn_of_mem_nodup {m : ButtonMap} (h : ButtonsWF m)
    {b : MouseButton} {w : WidgetId} (hm : (b, w) ∈ m) :
    lookupBtn m b = some w := by
  induction m with
  | nil => simp at hm
  | cons p rest ih =>
    rcases List.mem_cons.1 hm with hh | ht
    · rw [← hh, lookupBtn_cons, if_pos rfl]
    · have hne : p.1 ≠ b := by
        intro he
        have hmem : b ∈ rest.map (fun q => q.1) :=
          List.mem_map.2 ⟨(b, w), ht, rfl⟩
        have := (List.nodup_cons.1 h).1
        simp_all
      rw [lookupBtn_cons, if_neg hne]
      exact ih (List.nodup_cons.1 h).2 ht

theorem ButtonsWF_of_lookupDev {m : DeviceMap} (h : DevicesWF m)
    {d : DeviceId} {btns : ButtonMap} (hl : lookupDev m d = some btns) :
    ButtonsWF btns :=
  h.2 (d, btns) (mem_of_lookupDev hl)

theorem ButtonsWF_insertBtn {m : ButtonMap} (h : ButtonsWF m)
    (b : MouseButton) (w : WidgetId) : ButtonsWF (insertBtn m b w) := by
  show (((b, w) :: m.filter (fun p => p.1 != b)).map (fun p => p.1)).Nodup
  rw [List.map_cons, List.nodup_cons]
  constructor
  · intro hmem
    rcases List.mem_map.1 hmem with ⟨q, hq, hqe⟩
    have := (List.mem_filter.1 hq).2
    simp_all
  · exact List.Nodup.sublist
      (List.Sublist.map _ (List.filter_sublist m)) h

theorem ButtonsWF_removeBtn {m : ButtonMap} (h : ButtonsWF m)
    (b : MouseButton) : ButtonsWF (removeBtn m b) :=
  List.Nodup.sublist (List.Sublist.map _ (List.filter_sublist m)) h

theorem DevicesWF_insertDev {m : DeviceMap} (h : DevicesWF m)
    {btns : ButtonMap} (hb : ButtonsWF btns) (d : DeviceId) :
    DevicesWF (insertDev m d btns) := by
  constructor
  · show (((d, btns) :: m.filter (fun p => p.1 != d)).map (fun p => p.1)).Nodup
    rw [List.map_cons, List.nodup_cons]
    constructor
    · intro hmem
      rcases List.mem_map.1 hmem with ⟨q, hq, hqe⟩
      have := (List.mem_filter.1 hq).2
      simp_all
    · exact List.Nodup.sublist
        (List.Sublist.map _ (List.filter_sublist m)) h.1
  · intro p hp
    rcases List.mem_cons.1 hp with hh | ht
    · rw [hh]
      exact hb
    · exact h.2 p ((List.filter_sublist m).subset ht)

theorem DevicesWF_removeDev {m : DeviceMap} (h : DevicesWF m) (d : DeviceId) :
    DevicesWF (removeDev m d) :=
  ⟨List.Nodup.sublist (List.Sublist.map _ (List.filter_sublist m)) h.1,
    fun p hp => h.2 p ((List.filter_sublist m).subset hp)⟩

end Win

namespace Win

theorem ancestorChain_le (parentOf : WidgetId → Option WidgetId) :
    ∀ w, ∀ x ∈ ancestorChain parentOf w, x ≤ w := by
  intro w
  induction w using Nat.strong_induction_on with
  | _ w ih =>
    intro x hx
    rw [ancestorChain] at hx
    rcases List.mem_cons.1 hx with he | ht
    · exact Nat.le_of_eq he
    · cases hpar : parentOf w with
      | none => rw [hpar] at ht; simp at ht
      | some p =>
        rw [hpar] at ht
        simp only [] at ht
        by_cases hlt : p < w
        · rw [dif_pos hlt] at ht
          exact Nat.le_trans (ih p hlt x ht) (Nat.le_of_lt hlt)
        · rw [dif_neg hlt] at ht
          simp at ht

theorem ancestorChain_pairwise (parentOf : WidgetId → Option WidgetId) :
    ∀ w, List.Pairwise (fun a b => b < a) (ancestorChain parentOf w) := by
  intro w
  induction w using Nat.strong_induction_on with
  | _ w ih =>
    rw [ancestorChain]
    rw [List.pairwise_cons]
    constructor
    · intro x hx
      cases hpar : parentOf w with
      | none => rw [hpar] at hx; simp at hx
      | some p =>
        rw [hpar] at hx
        simp only [] at hx
        by_cases hlt : p < w
        · rw [dif_pos hlt] at hx
          exact Nat.lt_of_le_of_lt (ancestorChain_le parentOf p x hx) hlt
        · rw [dif_neg hlt] at hx
          simp at hx
    · cases hpar : parentOf w with
      | none => simp [hpar]
      | some p =>
        simp only []
        by_cases hlt : p < w
        · rw [dif_pos hlt]
          exact ih p hlt
        · rw [dif_neg hlt]
          simp

theorem ancestorChain_length (parentOf : WidgetId → Option WidgetId) :
    ∀ w, (ancestorChain parentOf w).length ≤ w + 1 := by
  intro w
  induction w using Nat.strong_induction_on with
  | _ w ih =>
    rw [ancestorChain]
    rw [List.length_cons]
    cases hpar : parentOf w with
    | none => simp
    | some p =>
      simp only []
      by_cases hlt : p < w
      · rw [dif_pos hlt]
        exact Nat.succ_le_succ (Nat.le_trans (ih p hlt) (Nat.succ_le_of_lt hlt))
      · rw [dif_neg hlt]
        simp

/-- Claim C4 (confirmed): `recursively_handle_event` returns the first widget
along the ancestor chain of the initial target whose callback reports
HANDLED (`find?`), so HANDLED stops dispatch at that widget, IGNORED moves to
the parent with the same event, and when the root also ignores the result is
`none` (the event is dropped).  The chain is strictly decreasing in widget
id — each ancestor occurs at most once — and its length is bounded (by
`w + 1`, and in particular by the depth of the target, since ids only
shrink along parent links), so dispatch halts within the tree's depth. -/
theorem claim_C4 (parentOf : WidgetId → Option WidgetId)
    (each_widget : WidgetId → Bool) (w : WidgetId) :
    recursively_handle_event parentOf each_widget w =
      (ancestorChain parentOf w).find? each_widget ∧
    List.Pairwise (fun a b => b < a) (ancestorChain parentOf w) ∧
    (ancestorChain parentOf w).length ≤ w + 1 := by
  refine ⟨?_, ancestorChain_pairwise parentOf w, ancestorChain_length parentOf w⟩
  induction w using Nat.strong_induction_on with
  | _ w ih =>
    rw [recursively_handle_event, ancestorChain, List.find?_cons]
    cases hcb : each_widget w with
    | true => rfl
    | false =>
      simp only [if_neg (by simp [hcb] : ¬ each_widget w = true)]
      cases hpar : parentOf w with
      | none => rfl
      | some p =>
        simp only []
        by_cases hlt : p < w
        · rw [dif_pos hlt, dif_pos hlt]
          exact ih p hlt
        · rw [dif_neg hlt, dif_neg hlt]
          rfl

/-- The `mouse_down` bubbling: the first delivery goes to the initial target,
every delivery is a `mouse_down` for this device and button, and a resolved
handler received `mouse_down` at some relative position for which its
callback reported HANDLED. -/
theorem bubbleMouseDown_spec {t : TreeModel} {loc : Point} {d : DeviceId}
    {b : MouseButton} :
    ∀ w {ds : List Delivered} {res : Option WidgetId},
      bubbleMouseDown t loc d b w = .ok (ds, res) →
      (∃ r, t.layout w = some r ∧
        ds.head? = some (Delivered.mouseDown w (loc.sub r.origin) d b)) ∧
      (∀ x ∈ ds, ∃ w' rel, x = Delivered.mouseDown w' rel d b) ∧
      (∀ hd, res = some hd → ∃ rel, Delivered.mouseDown hd rel d b ∈ ds ∧
        t.mouse_down_handled hd rel d b = true) := by
  intro w
  induction w using Nat.strong_induction_on with
  | _ w ih =>
    intro ds res h
    rw [bubbleMouseDown] at h
    cases hl : t.layout w with
    | none =>
      rw [hl] at h
      simp only [] at h
      cases h
    | some r =>
      rw [hl] at h
      simp only [] at h
      by_cases hh : t.mouse_down_handled w (loc.sub r.origin) d b
      · rw [if_pos hh] at h
        simp only [Except.ok.injEq, Prod.mk.injEq] at h
        obtain ⟨hds, hres⟩ := h
        subst hds
        subst hres
        refine ⟨⟨r, rfl, rfl⟩, ?_, ?_⟩
        · intro x hx
          rcases List.mem_singleton.1 hx with he
          exact ⟨w, loc.sub r.origin, he⟩
        · intro hd hres
          injection hres with he
          subst he
          exact ⟨loc.sub r.origin, List.mem_singleton.2 rfl, hh⟩
      · rw [if_neg hh] at h
        cases hpar : t.parentOf w with
        | none =>
          rw [hpar] at h
          simp only [Except.ok.injEq, Prod.mk.injEq] at h
          obtain ⟨hds, hres⟩ := h
          subst hds
          subst hres
          refine ⟨⟨r, rfl, rfl⟩, ?_, ?_⟩
          · intro x hx
            rcases List.mem_singleton.1 hx with he
            exact ⟨w, loc.sub r.origin, he⟩
          · intro hd hres
            cases hres
        | some p =>
          rw [hpar] at h
          simp only [] at h
          by_cases hlt : p < w
          · rw [dif_pos hlt] at h
            cases hrec : bubbleMouseDown t loc d b p with
            | error e =>
              rw [hrec] at h
              simp only [] at h
              cases h
            | ok r2 =>
              rcases r2 with ⟨ds', res'⟩
              rw [hrec] at h
              simp only [Except.ok.injEq, Prod.mk.injEq] at h
              obtain ⟨hds, hres⟩ := h
              subst hds
              subst hres
              obtain ⟨_, hall, hres⟩ := ih p hlt hrec
              refine ⟨⟨r, rfl, rfl⟩, ?_, ?_⟩
              · intro x hx
                rcases List.mem_cons.1 hx with he | ht
                · exact ⟨w, loc.sub r.origin, he⟩
                · exact hall x ht
              · intro hd hres2
                rcases hres hd hres2 with ⟨rel, hmem, hhd⟩
                exact ⟨rel, List.mem_cons_of_mem _ hmem, hhd⟩
          · rw [dif_neg hlt] at h
            simp only [Except.ok.injEq, Prod.mk.injEq] at h
            obtain ⟨hds, hres⟩ := h
            subst hds
            subst hres
            refine ⟨⟨r, rfl, rfl⟩, ?_, ?_⟩
            · intro x hx
              rcases List.mem_singleton.1 hx with he
              exact ⟨w, loc.sub r.origin, he⟩
            · intro hd hres
              cases hres

/-- Every delivery of the drag branch is a `mouse_drag` for this device,
aimed at a `(button, widget)` entry of the device's capture map. -/
theorem dragDeliver_spec {t : TreeModel} {loc : Point} {d : DeviceId} :
    ∀ {btns : ButtonMap} {ds : List Delivered},
      dragDeliver t loc d btns = .ok ds →
      ∀ x ∈ ds, ∃ b w rel, x = Delivered.mouseDrag w rel d b ∧ (b, w) ∈ btns := by
  intro btns
  induction btns with
  | nil =>
    intro ds h x hx
    rw [dragDeliver] at h
    injection h with h2
    subst h2
    simp at hx
  | cons p rest ih =>
    intro ds h x hx
    rcases p with ⟨b0, w0⟩
    rw [dragDeliver] at h
    cases hl : t.layout w0 with
    | none =>
      rw [hl] at h
      simp only [] at h
      cases h
    | some r =>
      rw [hl] at h
      simp only [] at h
      cases hrec : dragDeliver t loc d rest with
      | error e =>
        rw [hrec] at h
        simp only [] at h
        cases h
      | ok ds' =>
        rw [hrec] at h
        simp only [Except.ok.injEq] at h
        subst h
        rcases List.mem_cons.1 hx with he | ht
        · exact ⟨b0, w0, loc.sub r.origin, he, List.mem_cons_self _ _⟩
        · rcases ih hrec x ht with ⟨b1, w1, rel, hxe, hmem⟩
          exact ⟨b1, w1, rel, hxe, List.mem_cons_of_mem _ hmem⟩

/-- Claim C10 (confirmed): a release event whose `(device, button)` pair has
no capture entry is a complete no-op: the dispatch returns the state
unchanged — capture map, hover register, focus register and last cursor
location included — and delivers nothing, so no widget receives `mouse_up`. -/
theorem claim_C10 (t : TreeModel) (s : WindowState) (d : DeviceId)
    (b : MouseButton)
    (hnc : captureLookup s.mouse.devices d b = none) :
    step t s (Event.mouseInput d ElementState.released b) = .ok (s, []) := by
  rw [step, mouse_input]
  cases hld : lookupDev s.mouse.devices d with
  | none => rfl
  | some btns =>
    rw [captureLookup, hld] at hnc
    simp only [] at hnc
    simp only []
    rw [hnc]

/-- Witness for C10: from the start state (no captures), releasing button 0
of device 0 changes nothing and delivers nothing. -/
theorem claim_C10_witness :
    step cexTreeA startState (Event.mouseInput 0 ElementState.released 0) =
      .ok (startState, []) :=
  claim_C10 cexTreeA startState 0 0 rfl

/-- Claim C8 (confirmed): on every mouse-button press the focus register is
cleared tree-wide strictly before any `mouse_down` dispatch: the cleared-focus
effect is the first entry of the delivery sequence, every `mouse_down` comes
after it, and the post-state's focus register is empty (the widget callbacks
being modelled as pure, nothing re-requests focus during the dispatch —
matching the claim that focus after a click can only come from a widget's own
explicit request inside its `mouse_down` handling). -/
theorem claim_C8 (t : TreeModel) (s : WindowState) (d : DeviceId)
    (b : MouseButton) {s' : WindowState} {tr : List Delivered}
    (h : step t s (Event.mouseInput d ElementState.pressed b) = .ok (s', tr)) :
    s'.focused = none ∧ ∃ rest, tr = Delivered.clearedFocus :: rest := by
  rw [step, mouse_input] at h
  cases hloc : s.mouse.location with
  | none =>
    rw [hloc] at h
    cases hw : s.mouse.widget with
    | none =>
      rw [hw] at h
      simp only [Except.ok.injEq, Prod.mk.injEq] at h
      obtain ⟨hs, htr⟩ := h
      subst hs
      exact ⟨rfl, [], htr.symm⟩
    | some hovered =>
      rw [hw] at h
      simp only [Except.ok.injEq, Prod.mk.injEq] at h
      obtain ⟨hs, htr⟩ := h
      subst hs
      exact ⟨rfl, [], htr.symm⟩
  | some loc =>
    rw [hloc] at h
    cases hw : s.mouse.widget with
    | none =>
      rw [hw] at h
      simp only [Except.ok.injEq, Prod.mk.injEq] at h
      obtain ⟨hs, htr⟩ := h
      subst hs
      exact ⟨rfl, [], htr.symm⟩
    | some hovered =>
      rw [hw] at h
      simp only [] at h
      cases hbub : bubbleMouseDown t loc d b hovered with
      | error e =>
        rw [hbub] at h
        simp only [] at h
        cases h
      | ok r =>
        rcases r with ⟨ds, res⟩
        rw [hbub] at h
        simp only [] at h
        cases res with
        | some handler =>
          simp only [Except.ok.injEq, Prod.mk.injEq] at h
          obtain ⟨hs, htr⟩ := h
          subst hs
          exact ⟨rfl, ds, htr.symm⟩
        | none =>
          simp only [Except.ok.injEq, Prod.mk.injEq] at h
          obtain ⟨hs, htr⟩ := h
          subst hs
          exact ⟨rfl, ds, htr.symm⟩

end Win

namespace Win

theorem setHover_spec (s : WindowState) (w : WidgetId) (rel : Point) :
    (setHover s w rel).1.mouse = s.mouse ∧ (setHover s w rel).1.focused = s.focused ∧
    (∀ x ∈ (setHover s w rel).2,
      (∃ w' r', x = Delivered.hover w' r') ∨ ∃ w', x = Delivered.unhover w') := by
  rw [setHover]
  cases hh : s.hovered with
  | none =>
    refine ⟨rfl, rfl, ?_⟩
    intro x hx
    rcases List.mem_singleton.1 hx with he
    exact Or.inl ⟨w, rel, he⟩
  | some old =>
    simp only []
    by_cases hw : old == w
    · rw [if_pos hw]
      refine ⟨rfl, rfl, ?_⟩
      intro x hx
      rcases List.mem_singleton.1 hx with he
      exact Or.inl ⟨w, rel, he⟩
    · rw [if_neg hw]
      refine ⟨rfl, rfl, ?_⟩
      intro x hx
      rcases List.mem_cons.1 hx with he | ht
      · exact Or.inr ⟨old, he⟩
      · rcases List.mem_singleton.1 ht with he
        exact Or.inl ⟨w, rel, he⟩

theorem clearHover_spec (s : WindowState) :
    (clearHover s).1.mouse = s.mouse ∧ (clearHover s).1.focused = s.focused ∧
    (∀ x ∈ (clearHover s).2, ∃ w', x = Delivered.unhover w') := by
  rw [clearHover]
  cases hh : s.hovered with
  | none => exact ⟨rfl, rfl, by simp⟩
  | some old =>
    refine ⟨rfl, rfl, ?_⟩
    intro x hx
    rcases List.mem_singleton.1 hx with he
    exact ⟨old, he⟩

/-- The hover scan of `cursor_moved` picks exactly the widget the spec's
"fresh hit-test from the cursor position" describes. -/
theorem hoverScan_eq_spec (t : TreeModel) (p : Point) :
    (hoverScan t p).map (fun q => q.1) = specFreshHitTestTarget t p := by
  rw [hoverScan, specFreshHitTestTarget]
  induction widgets_at_point t p with
  | nil => rfl
  | cons w l ih =>
    rw [List.findSome?_cons, List.find?_cons]
    cases hl : t.layout w with
    | none =>
      simp only []
      rw [ih]
    | some r =>
      simp only []
      by_cases hh : t.hit_test w (p.sub r.origin)
      · rw [if_pos hh, hh]
        rfl
      · rw [if_neg hh, show t.hit_test w (p.sub r.origin) = false by simpa using hh]
        simp only []
        rw [ih]

theorem mouseDownTargets_head {ds : List Delivered} {w : WidgetId}
    {rel : Point} {d : DeviceId} {b : MouseButton}
    (h : ds.head? = some (Delivered.mouseDown w rel d b)) :
    (mouseDownTargets ds).head? = some w := by
  cases ds with
  | nil => simp at h
  | cons x rest =>
    rw [List.head?_cons] at h
    injection h with he
    subst he
    rw [mouseDownTargets, List.filterMap_cons]
    rfl

theorem mouseDownTargets_clearedFocus (ds : List Delivered) :
    mouseDownTargets (Delivered.clearedFocus :: ds) = mouseDownTargets ds := by
  rw [mouseDownTargets, List.filterMap_cons]
  rfl

end Win

namespace Win

theorem captureLookup_insertDev (m : DeviceMap) (d : DeviceId)
    (btns : ButtonMap) (b : MouseButton) :
    captureLookup (insertDev m d btns) d b = lookupBtn btns b := by
  rw [captureLookup, lookupDev_insertDev_self]

theorem captureLookup_insertDev_ne (m : DeviceMap) {d d' : DeviceId}
    (h : d' ≠ d) (btns : ButtonMap) (b : MouseButton) :
    captureLookup (insertDev m d btns) d' b = captureLookup m d' b := by
  rw [captureLookup, lookupDev_insertDev_ne _ h, captureLookup]

theorem captureLookup_removeDev (m : DeviceMap) (d : DeviceId)
    (b : MouseButton) : captureLookup (removeDev m d) d b = none := by
  rw [captureLookup, lookupDev_removeDev_self]

theorem captureLookup_removeDev_ne (m : DeviceMap) {d d' : DeviceId}
    (h : d' ≠ d) (b : MouseButton) :
    captureLookup (removeDev m d) d' b = captureLookup m d' b := by
  rw [captureLookup, lookupDev_removeDev_ne _ h, captureLookup]

theorem captureLookup_some (m : DeviceMap) (d : DeviceId) {btns : ButtonMap}
    (h : lookupDev m d = some btns) (b : MouseButton) :
    captureLookup m d b = lookupBtn btns b := by
  rw [captureLookup, h]

theorem captureLookup_of_none (m : DeviceMap) (d : DeviceId)
    (h : lookupDev m d = none) (b : MouseButton) :
    captureLookup m d b = none := by
  rw [captureLookup, h]

/-- Claim C2 (confirmed), stated as an invariant of one dispatch step from an
arbitrary well-formed state: (1) every `mouse_drag` delivered for a
`(device, button)` pair goes to the widget currently captured for that pair
(no hit-testing is consulted); (2) every `mouse_up` delivered for a pair goes
to the widget captured for it, and afterwards the pair's entry is gone — so
no further `mouse_drag` can fire for the pair until a new `mouse_down`
captures again; (3) a capture entry changes only when its own
`mouse_down`-press resolves a HANDLED widget (creating/replacing the entry
with exactly that widget, which received `mouse_down` in this very dispatch)
or when its own button release removes it; (4) well-formedness of the capture
map is preserved. -/
theorem claim_C2 (t : TreeModel) (s : WindowState) (e : Event)
    (hwf : DevicesWF s.mouse.devices) {s' : WindowState} {tr : List Delivered}
    (h : step t s e = .ok (s', tr)) :
    (∀ w rel d b, Delivered.mouseDrag w rel d b ∈ tr →
      captureLookup s.mouse.devices d b = some w) ∧
    (∀ w rel d b, Delivered.mouseUp w rel d b ∈ tr →
      captureLookup s.mouse.devices d b = some w ∧
      captureLookup s'.mouse.devices d b = none) ∧
    (∀ d b, captureLookup s'.mouse.devices d b ≠ captureLookup s.mouse.devices d b →
      (∃ w rel, captureLookup s'.mouse.devices d b = some w ∧
        e = Event.mouseInput d ElementState.pressed b ∧
        Delivered.mouseDown w rel d b ∈ tr ∧
        t.mouse_down_handled w rel d b = true) ∨
      (captureLookup s'.mouse.devices d b = none ∧
        e = Event.mouseInput d ElementState.released b)) ∧
    DevicesWF s'.mouse.devices := by
  cases e with
  | cursorMoved d0 p =>
    rw [step, cursor_moved] at h
    simp only [] at h
    cases hld : lookupDev s.mouse.devices d0 with
    | some btns =>
      rw [hld] at h
      simp only [] at h
      cases hdd : dragDeliver t p d0 btns with
      | error e2 =>
        rw [hdd] at h
        simp only [] at h
        cases h
      | ok ds =>
        rw [hdd] at h
        simp only [Except.ok.injEq, Prod.mk.injEq] at h
        obtain ⟨hs, htr⟩ := h
        subst hs
        subst htr
        refine ⟨?_, ?_, ?_, ?_⟩
        · intro w rel dd bb hmem
          rcases dragDeliver_spec hdd _ hmem with ⟨b1, w1, rel1, hxe, hbm⟩
          injection hxe with hw1 hrel1 hd1 hb1
          subst hw1
          subst hd1
          subst hb1
          rw [captureLookup, hld]
          exact lookupBtn_of_mem_nodup (ButtonsWF_of_lookupDev hwf hld) hbm
        · intro w rel dd bb hmem
          rcases dragDeliver_spec hdd _ hmem with ⟨b1, w1, rel1, hxe, _⟩
          cases hxe
        · intro dd bb hne
          exact absurd rfl hne
        · exact hwf
    | none =>
      rw [hld] at h
      simp only [] at h
      cases hsc : hoverScan t p with
      | some pair =>
        rcases pair with ⟨w0, rel0⟩
        rw [hsc] at h
        simp only [] at h
        injection h with h2
        have hs := congrArg Prod.fst h2
        have htr := congrArg Prod.snd h2
        simp only [] at hs htr
        subst hs
        subst htr
        obtain ⟨hm, _, hall⟩ := setHover_spec
          { s with mouse := { s.mouse with location := some p, widget := none } }
          w0 rel0
        have hdev : (({ (setHover { s with mouse :=
            { s.mouse with location := some p, widget := none } } w0 rel0).1 with
              mouse := { (setHover { s with mouse :=
            { s.mouse with location := some p, widget := none } } w0 rel0).1.mouse
                with widget := some w0 } } : WindowState)).mouse.devices =
            s.mouse.devices := by
          simp only []
          rw [hm]
        refine ⟨?_, ?_, ?_, ?_⟩
        · intro w rel dd bb hmem
          rcases hall _ hmem with ⟨w', r', he⟩ | ⟨w', he⟩ <;> cases he
        · intro w rel dd bb hmem
          rcases hall _ hmem with ⟨w', r', he⟩ | ⟨w', he⟩ <;> cases he
        · intro dd bb hne
          rw [hdev] at hne
          exact absurd rfl hne
        · rw [hdev]
          exact hwf
      | none =>
        rw [hsc] at h
        simp only [] at h
        injection h with h2
        have hs := congrArg Prod.fst h2
        have htr := congrArg Prod.snd h2
        simp only [] at hs htr
        subst hs
        subst htr
        obtain ⟨hm, _, hall⟩ := clearHover_spec
          { s with mouse := { s.mouse with location := some p, widget := none } }
        have hdev : (clearHover { s with mouse :=
            { s.mouse with location := some p, widget := none } }).1.mouse.devices =
            s.mouse.devices := by
          rw [hm]
        refine ⟨?_, ?_, ?_, ?_⟩
        · intro w rel dd bb hmem
          rcases hall _ hmem with ⟨w', he⟩
          cases he
        · intro w rel dd bb hmem
          rcases hall _ hmem with ⟨w', he⟩
          cases he
        · intro dd bb hne
          rw [hdev] at hne
          exact absurd rfl hne
        · rw [hdev]
          exact hwf
  | cursorLeft d0 =>
    rw [step] at h
    injection h with h2
    rw [cursor_left] at h2
    simp only [] at h2
    cases hw : s.mouse.widget with
    | none =>
      rw [hw] at h2
      simp only [] at h2
      have hs := congrArg Prod.fst h2
      have htr := congrArg Prod.snd h2
      simp only [] at hs htr
      subst hs
      subst htr
      refine ⟨?_, ?_, ?_, ?_⟩
      · intro w rel dd bb hmem
        simp at hmem
      · intro w rel dd bb hmem
        simp at hmem
      · intro dd bb hne
        exact absurd rfl hne
      · exact hwf
    | some w0 =>
      rw [hw] at h2
      simp only [] at h2
      have hs := congrArg Prod.fst h2
      have htr := congrArg Prod.snd h2
      simp only [] at hs htr
      subst hs
      subst htr
      obtain ⟨hm, _, hall⟩ := clearHover_spec
        { s with mouse := { s.mouse with widget := none } }
      have hdev : (clearHover { s with mouse :=
          { s.mouse with widget := none } }).1.mouse.devices =
          s.mouse.devices := by
        rw [hm]
      refine ⟨?_, ?_, ?_, ?_⟩
      · intro w rel dd bb hmem
        rcases hall _ hmem with ⟨w', he⟩
        cases he
      · intro w rel dd bb hmem
        rcases hall _ hmem with ⟨w', he⟩
        cases he
      · intro dd bb hne
        rw [hdev] at hne
        exact absurd rfl hne
      · rw [hdev]
        exact hwf
  | mouseInput d0 st b0 =>
    cases st with
    | pressed =>
      rw [step, mouse_input] at h
      cases hloc : s.mouse.location with
      | none =>
        rw [hloc] at h
        cases hwid : s.mouse.widget with
        | none =>
          rw [hwid] at h
          simp only [Except.ok.injEq, Prod.mk.injEq] at h
          obtain ⟨hs, htr⟩ := h
          subst hs
          subst htr
          refine ⟨?_, ?_, ?_, ?_⟩
          · intro w rel dd bb hmem
            rcases List.mem_singleton.1 hmem with he
            cases he
          · intro w rel dd bb hmem
            rcases List.mem_singleton.1 hmem with he
            cases he
          · intro dd bb hne
            exact absurd rfl hne
          · exact hwf
        | some hov =>
          rw [hwid] at h
          simp only [Except.ok.injEq, Prod.mk.injEq] at h
          obtain ⟨hs, htr⟩ := h
          subst hs
          subst htr
          refine ⟨?_, ?_, ?_, ?_⟩
          · intro w rel dd bb hmem
            rcases List.mem_singleton.1 hmem with he
            cases he
          · intro w rel dd bb hmem
            rcases List.mem_singleton.1 hmem with he
            cases he
          · intro dd bb hne
            exact absurd rfl hne
          · exact hwf
      | some loc =>
        rw [hloc] at h
        cases hwid : s.mouse.widget with
        | none =>
          rw [hwid] at h
          simp only [Except.ok.injEq, Prod.mk.injEq] at h
          obtain ⟨hs, htr⟩ := h
          subst hs
          subst htr
          refine ⟨?_, ?_, ?_, ?_⟩
          · intro w rel dd bb hmem
            rcases List.mem_singleton.1 hmem with he
            cases he
          · intro w rel dd bb hmem
            rcases List.mem_singleton.1 hmem with he
            cases he
          · intro dd bb hne
            exact absurd rfl hne
          · exact hwf
        | some hov =>
          rw [hwid] at h
          simp only [] at h
          cases hbub : bubbleMouseDown t loc d0 b0 hov with
          | error e2 =>
            rw [hbub] at h
            simp only [] at h
            cases h
          | ok r =>
            rcases r with ⟨ds, res⟩
            rw [hbub] at h
            simp only [] at h
            obtain ⟨_, hallds, hres⟩ := bubbleMouseDown_spec hov hbub
            cases res with
            | none =>
              simp only [Except.ok.injEq, Prod.mk.injEq] at h
              obtain ⟨hs, htr⟩ := h
              subst hs
              subst htr
              refine ⟨?_, ?_, ?_, ?_⟩
              · intro w rel dd bb hmem
                rcases List.mem_cons.1 hmem with he | ht
                · cases he
                · rcases hallds _ ht with ⟨w', rel', he⟩
                  cases he
              · intro w rel dd bb hmem
                rcases List.mem_cons.1 hmem with he | ht
                · cases he
                · rcases hallds _ ht with ⟨w', rel', he⟩
                  cases he
              · intro dd bb hne
                exact absurd rfl hne
              · exact hwf
            | some handler =>
              simp only [Except.ok.injEq, Prod.mk.injEq] at h
              obtain ⟨hs, htr⟩ := h
              subst hs
              subst htr
              have hbwf : ButtonsWF ((lookupDev s.mouse.devices d0).getD []) := by
                cases hld0 : lookupDev s.mouse.devices d0 with
                | none => exact List.nodup_nil
                | some btns0 => exact ButtonsWF_of_lookupDev hwf hld0
              refine ⟨?_, ?_, ?_, ?_⟩
              · intro w rel dd bb hmem
                rcases List.mem_cons.1 hmem with he | ht
                · cases he
                · rcases hallds _ ht with ⟨w', rel', he⟩
                  cases he
              · intro w rel dd bb hmem
                rcases List.mem_cons.1 hmem with he | ht
                · cases he
                · rcases hallds _ ht with ⟨w', rel', he⟩
                  cases he
              · intro dd bb hne
                by_cases hd : dd = d0
                · subst hd
                  by_cases hb : bb = b0
                  · subst hb
                    left
                    rcases hres handler rfl with ⟨rel, hmem, hhd⟩
                    refine ⟨handler, rel, ?_, rfl, List.mem_cons_of_mem _ hmem, hhd⟩
                    show captureLookup (insertDev s.mouse.devices dd
                      (insertBtn ((lookupDev s.mouse.devices dd).getD []) bb
                        handler)) dd bb = some handler
                    rw [captureLookup_insertDev, lookupBtn_insertBtn_self]
                  · exfalso
                    apply hne
                    show captureLookup (insertDev s.mouse.devices dd
                      (insertBtn ((lookupDev s.mouse.devices dd).getD []) b0
                        handler)) dd bb = captureLookup s.mouse.devices dd bb
                    rw [captureLookup_insertDev, lookupBtn_insertBtn_ne _ hb]
                    cases hld0 : lookupDev s.mouse.devices dd with
                    | none =>
                      rw [captureLookup_of_none _ _ hld0]
                      rfl
                    | some btns0 =>
                      rw [captureLookup_some _ _ hld0]
                      rfl
                · exfalso
                  apply hne
                  show captureLookup (insertDev s.mouse.devices d0
                    (insertBtn ((lookupDev s.mouse.devices d0).getD []) b0
                      handler)) dd bb = captureLookup s.mouse.devices dd bb
                  rw [captureLookup_insertDev_ne _ hd]
              · exact DevicesWF_insertDev hwf
                  (ButtonsWF_insertBtn hbwf b0 handler) d0
    | released =>
      rw [step, mouse_input] at h
      cases hld : lookupDev s.mouse.devices d0 with
      | none =>
        rw [hld] at h
        simp only [Except.ok.injEq, Prod.mk.injEq] at h
        obtain ⟨hs, htr⟩ := h
        subst hs
        subst htr
        refine ⟨?_, ?_, ?_, ?_⟩
        · intro w rel dd bb hmem
          simp at hmem
        · intro w rel dd bb hmem
          simp at hmem
        · intro dd bb hne
          exact absurd rfl hne
        · exact hwf
      | some btns =>
        rw [hld] at h
        simp only [] at h
        cases hlb : lookupBtn btns b0 with
        | none =>
          rw [hlb] at h
          simp only [Except.ok.injEq, Prod.mk.injEq] at h
          obtain ⟨hs, htr⟩ := h
          subst hs
          subst htr
          refine ⟨?_, ?_, ?_, ?_⟩
          · intro w rel dd bb hmem
            simp at hmem
          · intro w rel dd bb hmem
            simp at hmem
          · intro dd bb hne
            exact absurd rfl hne
          · exact hwf
        | some handler =>
          rw [hlb] at h
          simp only [Except.ok.injEq, Prod.mk.injEq] at h
          obtain ⟨hs, htr⟩ := h
          subst hs
          subst htr
          have hnewnone : captureLookup
              (if (removeBtn btns b0).isEmpty = true
                then removeDev s.mouse.devices d0
                else insertDev s.mouse.devices d0 (removeBtn btns b0)) d0 b0 =
              none := by
            by_cases hemp : (removeBtn btns b0).isEmpty = true
            · rw [if_pos hemp]
              exact captureLookup_removeDev _ _ _
            · rw [if_neg hemp, captureLookup_insertDev, lookupBtn_removeBtn_self]
          refine ⟨?_, ?_, ?_, ?_⟩
          · intro w rel dd bb hmem
            rcases List.mem_singleton.1 hmem with he
            cases he
          · intro w rel dd bb hmem
            rcases List.mem_singleton.1 hmem with he
            injection he with hw1 hrel1 hd1 hb1
            subst hw1
            subst hd1
            subst hb1
            constructor
            · rw [captureLookup, hld]
              exact hlb
            · exact hnewnone
          · intro dd bb hne
            by_cases hd : dd = d0
            · subst hd
              by_cases hb : bb = b0
              · subst hb
                exact Or.inr ⟨hnewnone, rfl⟩
              · exfalso
                apply hne
                show captureLookup (if (removeBtn btns b0).isEmpty = true
                    then removeDev s.mouse.devices dd
                    else insertDev s.mouse.devices dd (removeBtn btns b0))
                  dd bb = captureLookup s.mouse.devices dd bb
                by_cases hemp : (removeBtn btns b0).isEmpty = true
                · rw [if_pos hemp, captureLookup_removeDev,
                    captureLookup_some _ _ hld]
                  have hrb : removeBtn btns b0 = [] := by
                    simpa using hemp
                  have hnone : lookupBtn btns bb = none := by
                    rw [← lookupBtn_removeBtn_ne btns hb, hrb]
                    rfl
                  rw [hnone]
                · rw [if_neg hemp, captureLookup_insertDev,
                    lookupBtn_removeBtn_ne btns hb, captureLookup_some _ _ hld]
            · exfalso
              apply hne
              show captureLookup (if (removeBtn btns b0).isEmpty = true
                  then removeDev s.mouse.devices d0
                  else insertDev s.mouse.devices d0 (removeBtn btns b0))
                dd bb = captureLookup s.mouse.devices dd bb
              by_cases hemp : (removeBtn btns b0).isEmpty = true
              · rw [if_pos hemp, captureLookup_removeDev_ne _ hd]
              · rw [if_neg hemp, captureLookup_insertDev_ne _ hd]
          · show DevicesWF (if (removeBtn btns b0).isEmpty = true
                then removeDev s.mouse.devices d0
                else insertDev s.mouse.devices d0 (removeBtn btns b0))
            by_cases hemp : (removeBtn btns b0).isEmpty = true
            · rw [if_pos hemp]
              exact DevicesWF_removeDev hwf d0
            · rw [if_neg hemp]
              exact DevicesWF_insertDev hwf
                (ButtonsWF_removeBtn (ButtonsWF_of_lookupDev hwf hld) b0) d0

/-- Witness for C2: the hypotheses of `claim_C2` hold at the initial state
with a `cursorLeft` event, and its first conjunct follows there. -/
theorem claim_C2_witness :
    DevicesWF startState.mouse.devices ∧
    step cexTreeA startState (Event.cursorLeft 0) =
      .ok (startState, ([] : List Delivered)) ∧
    (∀ w rel d b, Delivered.mouseDrag w rel d b ∈ ([] : List Delivered) →
      captureLookup startState.mouse.devices d b = some w) :=
  ⟨by simp [DevicesWF, startState], rfl,
    (claim_C2 cexTreeA startState (Event.cursorLeft 0)
      (by simp [DevicesWF, startState]) rfl).1⟩

/-- Witness for C8: a concrete press on the initial state, with the
hypothesis of `claim_C8` discharged by evaluation. -/
theorem claim_C8_witness :
    step cexTreeA startState (Event.mouseInput 0 ElementState.pressed 0) =
      .ok (startState, [Delivered.clearedFocus]) ∧
    (startState.focused = none ∧
      ∃ rest, [Delivered.clearedFocus] = Delivered.clearedFocus :: rest) :=
  ⟨rfl, claim_C8 cexTreeA startState 0 0 rfl⟩

theorem bubbleMouseDown_cexTreeA_inside :
    bubbleMouseDown cexTreeA ⟨5, 5⟩ 0 1 1 =
      .ok ([Delivered.mouseDown 1 ⟨5, 5⟩ 0 1], some 1) := by
  rw [bubbleMouseDown]
  simp [cexTreeA, Point.sub]

theorem bubbleMouseDown_cexTreeA_outside :
    bubbleMouseDown cexTreeA ⟨105, 105⟩ 0 2 1 =
      .ok ([Delivered.mouseDown 1 ⟨105, 105⟩ 0 2], some 1) := by
  rw [bubbleMouseDown]
  simp [cexTreeA, Point.sub]

theorem step_cexA_press1 :
    step cexTreeA ⟨none, some 1, ⟨some ⟨5, 5⟩, some 1, []⟩⟩
      (Event.mouseInput 0 ElementState.pressed 1) =
      .ok (⟨none, some 1, ⟨some ⟨5, 5⟩, some 1, [(0, [(1, 1)])]⟩⟩,
        [Delivered.clearedFocus, Delivered.mouseDown 1 ⟨5, 5⟩ 0 1]) := by
  rw [step, mouse_input]
  simp only []
  rw [bubbleMouseDown_cexTreeA_inside]
  rfl

/-- Counterexample to claim C1 as stated: after the cursor hovers widget 1,
presses button 1 (capturing widget 1), and moves to (105,105) — inside
widget 2, far outside widget 1 — a press of button 2 delivers `mouse_down`
to the stale cached widget 1, while a fresh front-to-back hit-test at the
current cursor position selects widget 2.  `mouse_input` dispatches from the
cached `self.mouse_state.widget`, not a fresh hit-test. -/
theorem claim_C1_counterexample :
    runEvents startState
      [(cexTreeA, Event.cursorMoved 0 ⟨5, 5⟩),
        (cexTreeA, Event.mouseInput 0 ElementState.pressed 1),
        (cexTreeA, Event.cursorMoved 0 ⟨105, 105⟩)] =
      .ok ⟨none, some 1, ⟨some ⟨105, 105⟩, some 1, [(0, [(1, 1)])]⟩⟩ ∧
    mouseDownTargets (deliveriesOf (step cexTreeA
      ⟨none, some 1, ⟨some ⟨105, 105⟩, some 1, [(0, [(1, 1)])]⟩⟩
      (Event.mouseInput 0 ElementState.pressed 2))) = [1] ∧
    specFreshHitTestTarget cexTreeA ⟨105, 105⟩ = some 2 ∧
    (1 : WidgetId) ≠ 2 := by
  refine ⟨?_, ?_, by decide, by decide⟩
  · rw [runEvents]
    have h1 : step cexTreeA startState (Event.cursorMoved 0 ⟨5, 5⟩) =
        .ok (⟨none, some 1, ⟨some ⟨5, 5⟩, some 1, []⟩⟩,
          [Delivered.hover 1 ⟨5, 5⟩]) := by rfl
    rw [h1]
    simp only []
    rw [runEvents, step_cexA_press1]
    simp only []
    rw [runEvents]
    have h3 : step cexTreeA
        ⟨none, some 1, ⟨some ⟨5, 5⟩, some 1, [(0, [(1, 1)])]⟩⟩
        (Event.cursorMoved 0 ⟨105, 105⟩) =
        .ok (⟨none, some 1, ⟨some ⟨105, 105⟩, some 1, [(0, [(1, 1)])]⟩⟩,
          [Delivered.mouseDrag 1 ⟨105, 105⟩ 0 1]) := by rfl
    rw [h3]
    simp only []
    rw [runEvents]
  · have h4 : step cexTreeA
        ⟨none, some 1, ⟨some ⟨105, 105⟩, some 1, [(0, [(1, 1)])]⟩⟩
        (Event.mouseInput 0 ElementState.pressed 2) =
        .ok (⟨none, some 1,
            ⟨some ⟨105, 105⟩, some 1, [(0, [(2, 1), (1, 1)])]⟩⟩,
          [Delivered.clearedFocus, Delivered.mouseDown 1 ⟨105, 105⟩ 0 2]) := by
      rw [step, mouse_input]
      simp only []
      rw [bubbleMouseDown_cexTreeA_outside]
      rfl
    rw [h4]
    rfl

/-- Claim C1 (corrected): the mouse-down dispatch target is the CACHED
hovered widget (`self.mouse_state.widget`), not a fresh press-time hit-test:
(a) with no cached cursor location or no cached widget, a press delivers no
`mouse_down` at all; (b) otherwise the first `mouse_down` goes to the cached
widget; (c) it is the capture-free `cursor_moved` scan that refreshes the
cache with exactly the spec's fresh front-to-back first-hit target. -/
theorem claim_C1_amended (t : TreeModel) (s : WindowState) (d : DeviceId)
    (b : MouseButton) (p : Point) :
    (∀ s' tr, step t s (Event.mouseInput d ElementState.pressed b) =
        .ok (s', tr) →
      (s.mouse.location = none ∨ s.mouse.widget = none) →
      mouseDownTargets tr = []) ∧
    (∀ s' tr w loc, step t s (Event.mouseInput d ElementState.pressed b) =
        .ok (s', tr) →
      s.mouse.location = some loc → s.mouse.widget = some w →
      (mouseDownTargets tr).head? = some w) ∧
    (∀ s' tr, lookupDev s.mouse.devices d = none →
      step t s (Event.cursorMoved d p) = .ok (s', tr) →
      s'.mouse.widget = specFreshHitTestTarget t p) := by
  refine ⟨?_, ?_, ?_⟩
  · intro s' tr h hnone
    rw [step, mouse_input] at h
    simp only [] at h
    cases hl : s.mouse.location with
    | none =>
      rw [hl] at h
      simp only [Except.ok.injEq, Prod.mk.injEq] at h
      obtain ⟨_, htr⟩ := h
      subst htr
      rfl
    | some loc =>
      cases hw : s.mouse.widget with
      | none =>
        rw [hl, hw] at h
        simp only [Except.ok.injEq, Prod.mk.injEq] at h
        obtain ⟨_, htr⟩ := h
        subst htr
        rfl
      | some w =>
        rcases hnone with hc | hc
        · rw [hl] at hc
          cases hc
        · rw [hw] at hc
          cases hc
  · intro s' tr w loc h hloc hw
    rw [step, mouse_input] at h
    simp only [] at h
    rw [hloc, hw] at h
    simp only [] at h
    cases hbub : bubbleMouseDown t loc d b w with
    | error e2 =>
      rw [hbub] at h
      simp only [] at h
      cases h
    | ok r =>
      rcases r with ⟨ds, res⟩
      rw [hbub] at h
      simp only [] at h
      obtain ⟨⟨r0, hr0, hhead⟩, _, _⟩ := bubbleMouseDown_spec w hbub
      cases res with
      | some handler =>
        simp only [Except.ok.injEq, Prod.mk.injEq] at h
        obtain ⟨_, htr⟩ := h
        subst htr
        rw [mouseDownTargets_clearedFocus]
        exact mouseDownTargets_head hhead
      | none =>
        simp only [Except.ok.injEq, Prod.mk.injEq] at h
        obtain ⟨_, htr⟩ := h
        subst htr
        rw [mouseDownTargets_clearedFocus]
        exact mouseDownTargets_head hhead
  · intro s' tr hnone h
    rw [step, cursor_moved] at h
    simp only [] at h
    rw [hnone] at h
    simp only [] at h
    cases hhs : hoverScan t p with
    | some q =>
      rcases q with ⟨w, rel⟩
      rw [hhs] at h
      simp only [] at h
      cases hsv : setHover
          ⟨s.focused, s.hovered, ⟨some p, none, s.mouse.devices⟩⟩ w rel with
      | mk s3 ds =>
        rw [hsv] at h
        simp only [Except.ok.injEq, Prod.mk.injEq] at h
        obtain ⟨hs, _⟩ := h
        rw [← hs]
        rw [← hoverScan_eq_spec, hhs]
        rfl
    | none =>
      rw [hhs] at h
      simp only [] at h
      cases hch : clearHover
          ⟨s.focused, s.hovered, ⟨some p, none, s.mouse.devices⟩⟩ with
      | mk s3 ds =>
        rw [hch] at h
        simp only [Except.ok.injEq, Prod.mk.injEq] at h
        obtain ⟨hs, _⟩ := h
        rw [← hs]
        have hm := (clearHover_spec
          ⟨s.focused, s.hovered, ⟨some p, none, s.mouse.devices⟩⟩).1
        rw [hch] at hm
        rw [← hoverScan_eq_spec, hhs]
        show s3.mouse.widget = none
        rw [hm]

/-- Witness for the amended C1: a capture-free cursor move over widget 1
caches exactly the fresh hit-test target. -/
theorem claim_C1_amended_witness :
    lookupDev startState.mouse.devices 0 = none ∧
    step cexTreeA startState (Event.cursorMoved 0 ⟨5, 5⟩) =
      .ok (⟨none, some 1, ⟨some ⟨5, 5⟩, some 1, []⟩⟩,
        [Delivered.hover 1 ⟨5, 5⟩]) ∧
    (⟨none, some 1, ⟨some ⟨5, 5⟩, some 1, []⟩⟩ : WindowState).mouse.widget =
      specFreshHitTestTarget cexTreeA ⟨5, 5⟩ :=
  ⟨rfl, by rfl,
    (claim_C1_amended cexTreeA startState 0 0 ⟨5, 5⟩).2.2
      ⟨none, some 1, ⟨some ⟨5, 5⟩, some 1, []⟩⟩
      [Delivered.hover 1 ⟨5, 5⟩] rfl (by rfl)⟩

/-- Counterexample to claim C7 as stated: a captured widget that loses its
cached rectangle mid-gesture makes the next cursor move PANIC — the
`mouse_drag` path calls `last_rendered_at().expect("passed hit test")` —
rather than substituting an absent position. -/
theorem claim_C7_counterexample :
    runEvents startState
      [(cexTreeA, Event.cursorMoved 0 ⟨5, 5⟩),
        (cexTreeA, Event.mouseInput 0 ElementState.pressed 1),
        (cexTreeB, Event.cursorMoved 0 ⟨6, 6⟩)] =
      .error "passed hit test" ∧
    cexTreeB.layout 1 = none := by
  refine ⟨?_, by decide⟩
  rw [runEvents]
  have h1 : step cexTreeA startState (Event.cursorMoved 0 ⟨5, 5⟩) =
      .ok (⟨none, some 1, ⟨some ⟨5, 5⟩, some 1, []⟩⟩,
        [Delivered.hover 1 ⟨5, 5⟩]) := by rfl
  rw [h1]
  simp only []
  rw [runEvents, step_cexA_press1]
  simp only []
  rw [runEvents]
  have h3 : step cexTreeB
      ⟨none, some 1, ⟨some ⟨5, 5⟩, some 1, [(0, [(1, 1)])]⟩⟩
      (Event.cursorMoved 0 ⟨6, 6⟩) = .error "passed hit test" := by rfl
  rw [h3]

/-- Claim C7 (corrected): only the `mouse_up` (release) path tolerates
missing geometry — it always completes and substitutes a `none` position
when the captured widget's rectangle is gone; the drag and press paths
abort instead (see the counterexample). -/
theorem claim_C7_amended (t : TreeModel) (s : WindowState) (d : DeviceId)
    (b : MouseButton) :
    isOkE (step t s (Event.mouseInput d ElementState.released b)) = true ∧
    (∀ btns w, lookupDev s.mouse.devices d = some btns →
      lookupBtn btns b = some w → t.layout w = none →
      deliveriesOf (step t s (Event.mouseInput d ElementState.released b)) =
        [Delivered.mouseUp w none d b]) := by
  constructor
  · rw [step, mouse_input]
    simp only []
    cases hld : lookupDev s.mouse.devices d with
    | none => rfl
    | some btns =>
      simp only []
      cases hlb : lookupBtn btns b with
      | none => rfl
      | some handler => rfl
  · intro btns w hld hlb hlay
    rw [step, mouse_input]
    simp only []
    rw [hld]
    simp only []
    rw [hlb]
    simp only []
    rw [hlay]
    rfl

/-- Witness for the amended C7: releasing button 1 after widget 1 was
unmounted delivers `mouse_up` with an absent position instead of aborting. -/
theorem claim_C7_amended_witness :
    lookupDev ([(0, [(1, 1)])] : DeviceMap) 0 = some [(1, 1)] ∧
    lookupBtn [(1, 1)] 1 = some 1 ∧
    cexTreeB.layout 1 = none ∧
    deliveriesOf (step cexTreeB
      ⟨none, some 1, ⟨some ⟨6, 6⟩, some 1, [(0, [(1, 1)])]⟩⟩
      (Event.mouseInput 0 ElementState.released 1)) =
      [Delivered.mouseUp 1 none 0 1] :=
  ⟨rfl, rfl, rfl,
    (claim_C7_amended cexTreeB
      ⟨none, some 1, ⟨some ⟨6, 6⟩, some 1, [(0, [(1, 1)])]⟩⟩ 0 1).2
      [(1, 1)] 1 rfl rfl rfl⟩

end Win
